import Mathlib

/-!
Verification of the template variable resolution and dynamic text layout
engine of `scripts/render.py`.

Strings are modelled as `List Char` (one entry per code point, matching
Python's `str`).  Python's `\s` / `str.strip()` whitespace class is modelled
by `pyIsSpace` (the six ASCII whitespace characters).  Numbers that the
source manipulates as floats (coordinates, font sizes) are modelled as `ℚ`.
-/

/-- Python's whitespace class (`\s`, `str.strip`) restricted to ASCII:
space, tab, newline, carriage return, vertical tab, form feed. -/
def pyIsSpace (c : Char) : Bool :=
  c = ' ' || c = '\t' || c = '\n' || c = '\r' || c = '\x0b' || c = '\x0c'

/-- Python's `str.strip()`: remove leading and trailing whitespace. -/
def pyStrip (s : List Char) : List Char :=
  ((s.dropWhile pyIsSpace).reverse.dropWhile pyIsSpace).reverse

/-- Fuel-driven worker for `splitRuns`; the fuel only forces structural
termination and is never exhausted when it starts at the list's length. -/
def splitRunsF : Nat → List Char → List (List Char)
  | 0, _ => []
  | _ + 1, [] => []
  | fuel + 1, c :: cs =>
    (c :: cs.takeWhile (fun d => pyIsSpace d == pyIsSpace c)) ::
      splitRunsF fuel (cs.dropWhile (fun d => pyIsSpace d == pyIsSpace c))

/-- `re.split(r"(\s+)", text)` on a string: the maximal runs of
whitespace / non-whitespace characters, in order, separators kept.
(For text with no leading/trailing whitespace this is exactly what the
Python call returns; `re.split` would additionally produce empty strings
at a leading/trailing separator, which the caller strips away first and
whose processing loop skips empty tokens anyway.) -/
def splitRuns (l : List Char) : List (List Char) :=
  splitRunsF l.length l

/-- The greedy accumulation loop of `_wrap_words` (render.py:60-72):
tokens are accumulated into `line`; when adding a token would push the
trimmed line over `maxChars` and the line is nonempty, the trimmed line is
emitted and the token (trimmed) starts the next line; the trailing line is
emitted if its trimmed form is nonempty. -/
def greedyLines (maxChars : Nat) : List (List Char) → List Char → List (List Char)
  | [], line => if pyStrip line ≠ [] then [pyStrip line] else []
  | t :: ts, line =>
    if t.isEmpty then greedyLines maxChars ts line
    else
      let candidate := line ++ t
      if (pyStrip candidate).length ≤ maxChars || line.isEmpty then
        greedyLines maxChars ts candidate
      else
        pyStrip line :: greedyLines maxChars ts (pyStrip t)

/-- Fuel-driven worker for `hardChunks`.  With `1 ≤ maxChars` every
iteration strictly shortens the string, so fuel `s.length` is never
exhausted; for `maxChars = 0` the Python loop does not terminate at all,
so no fuel choice can (or needs to) be faithful there. -/
def hardChunksF : Nat → Nat → List Char → List (List Char)
  | 0, _, s => if s.isEmpty then [] else [s]
  | fuel + 1, maxChars, s =>
    if maxChars < s.length then
      (s.take maxChars ++ ['-']) :: hardChunksF fuel maxChars (s.drop maxChars)
    else if s.isEmpty then [] else [s]

/-- The hard-break loop of `_wrap_words` (render.py:79-84): while the string
is longer than `maxChars`, emit its first `maxChars` characters with a
trailing hyphen; the final nonempty remainder is emitted unmarked. -/
def hardChunks (maxChars : Nat) (s : List Char) : List (List Char) :=
  hardChunksF s.length maxChars s

/-- Per-line dispatch of the hard-break step (render.py:75-84): a line within
budget is kept as is, an overlong line is hard-broken. -/
def hardBreakLine (maxChars : Nat) (ln : List Char) : List (List Char) :=
  if ln.length ≤ maxChars then [ln] else hardChunks maxChars ln

/-- `_wrap_words(text, max_chars)` (render.py:55-85): strip, tokenize,
greedily accumulate, hard-break overlong lines; a blank input — and an
empty result — yield the single empty line. -/
def _wrap_words (text : List Char) (maxChars : Nat) : List (List Char) :=
  let t := pyStrip text
  if t.isEmpty then [[]]
  else
    let fixed := (greedyLines maxChars (splitRuns t) []).flatMap (hardBreakLine maxChars)
    if fixed.isEmpty then [[]] else fixed

/-- `_wrap_words` as called with a possibly-`None` argument: the source's
`(text or "").strip()` maps `None` to the empty string. -/
def _wrap_words_opt (text : Option (List Char)) (maxChars : Nat) : List (List Char) :=
  _wrap_words (text.getD []) maxChars

/-- The last-line rewrite of `set_wrapped_text` (render.py:100): a last line
at or over budget is cut to `max_chars - 1` characters plus an ellipsis,
one under budget just receives the ellipsis. -/
def ellipsize (maxChars : Nat) (ln : List Char) : List Char :=
  if maxChars ≤ ln.length then ln.take (maxChars - 1) ++ ['…'] else ln ++ ['…']

/-- The pure core of `set_wrapped_text` (render.py:96-100): wrap, then if
`max_lines` is given (and nonzero — Python truthiness) and exceeded,
truncate to `max_lines` lines and ellipsize the last survivor. -/
def set_wrapped_text_lines (value : List Char) (maxChars : Nat)
    (maxLines : Option Nat) : List (List Char) :=
  let lines := _wrap_words value maxChars
  match maxLines with
  | none => lines
  | some n =>
    if n ≠ 0 ∧ n < lines.length then
      let t := lines.take n
      t.dropLast ++ [ellipsize maxChars (t.getLast?.getD [])]
    else lines

/-- `TRACK_LETTER_SPACING_EM` (render.py:18). -/
def TRACK_LETTER_SPACING_EM : ℚ := 6 / 100

/-- `_estimate_max_chars_for_element` (render.py:151-158), with the values
the source reads off the element (`x`, `font-size`) passed as parameters.
`int(width_px // max(1.0, char_px))` is float floor division of a
non-negative numerator by a divisor `≥ 1`, i.e. `⌊widthPx / max 1 charPx⌋`. -/
def _estimate_max_chars_for_element (x fontSize rightBoundaryX paddingPx : ℚ) : ℤ :=
  let charPx := fontSize * (6 / 10 + TRACK_LETTER_SPACING_EM)
  let widthPx := max 0 (rightBoundaryX - paddingPx - x)
  max 8 ⌊widthPx / max 1 charPx⌋

/-- Python `str.upper()` on one ASCII character. -/
def pyUpperChar (c : Char) : Char :=
  if 'a' ≤ c ∧ c ≤ 'z' then Char.ofNat (c.toNat - 32) else c

/-- Python `str.upper()` restricted to ASCII. -/
def pyUpper (s : String) : String :=
  String.mk (s.toList.map pyUpperChar)

/-- Python `str.lower()` on one ASCII character. -/
def pyLowerChar (c : Char) : Char :=
  if 'A' ≤ c ∧ c ≤ 'Z' then Char.ofNat (c.toNat + 32) else c

/-- Python `str.lower()` restricted to ASCII. -/
def pyLower (s : String) : String :=
  String.mk (s.toList.map pyLowerChar)

/-- The resolver `get(key, fallback)` defined inside `render_one`
(render.py:250-255).  The release record (`data`, parsed YAML) maps keys to
possibly-null values; `defaults` is the metadata-derived mapping.  The record
is consulted under the key exactly as supplied, the defaults under the
upper-cased key, and both mappings behave as Python dicts (the first
binding in the association list is the live one). -/
def render_get (data : List (String × Option String))
    (defaults : List (String × String)) (key fallback : String) : String :=
  match data.lookup key with
  | some (some v) => v
  | _ => (defaults.lookup (pyUpper key)).getD fallback

/-- Lookup under the lower-cased key — the record branch of the resolver as
the spec's words state it ("under the lower-case key"); kept separately from
`render_get` (the source) to compare the two. -/
def resolve_spec (data : List (String × Option String))
    (defaults : List (String × String)) (key fallback : String) : String :=
  match data.lookup (pyLower key) with
  | some (some v) => v
  | _ => (defaults.lookup (pyUpper key)).getD fallback

/-- Python `str.splitlines` restricted to `\n` separators: worker. -/
def splitLinesGo : List Char → List Char → List (List Char)
  | [], acc => if acc.isEmpty then [] else [acc]
  | '\n' :: rest, acc => acc :: splitLinesGo rest []
  | c :: rest, acc => splitLinesGo rest (acc ++ [c])

/-- Python `str.splitlines` restricted to `\n` separators (no trailing
empty line; empty string gives no lines). -/
def splitLines (s : List Char) : List (List Char) :=
  splitLinesGo s []

/-- Python dict assignment `d[k] = v` on an association list: replace the
live binding or append a new one. -/
def dictSet (d : List (String × String)) (k v : String) : List (String × String) :=
  match d with
  | [] => [(k, v)]
  | (k', v') :: rest => if k' = k then (k, v) :: rest else (k', v') :: dictSet rest k v

/-- The line loop of `parse_metadata_defaults` (render.py:33-40): strip each
line, skip blank lines, the `RELEASE_VARIABLES` header line and lines
without `=`, and store `k.strip() = v.strip()` split at the first `=`. -/
def parseDefaultLines (text : List Char) : List (String × String) :=
  (splitLines text).foldl
    (fun d raw =>
      let line := pyStrip raw
      if line.isEmpty then d
      else if line.take 17 = "RELEASE_VARIABLES".toList then d
      else if ¬ line.contains '=' then d
      else
        let k := line.takeWhile (fun c => c ≠ '=')
        let v := (line.dropWhile (fun c => c ≠ '=')).drop 1
        dictSet d (String.mk (pyStrip k)) (String.mk (pyStrip v)))
    []

/-- The errors raised by the engine (render.py:46, 90, 116, 166, 183):
`missingElement` is `RuntimeError("Missing element id=... in template")`,
`missingStyleBlock` is `RuntimeError("Missing <style id='css_vars'> in
template")`. -/
inductive RenderError where
  | missingElement
  | missingStyleBlock
deriving DecidableEq

/-- The slice of the SVG template document the verified engine touches:
the designated style container `<style id="css_vars">` and the metadata
container `<metadata id="release_vars">`.  The outer `Option` is element
presence (the xpath hit), the inner `Option` the element's `text` field
(`None` or a string), matching lxml. -/
structure SvgDoc where
  cssVarsStyle : Option (Option (List Char))
  releaseVarsMetadata : Option (Option (List Char))

/-- `parse_metadata_defaults(root)` (render.py:23-41): no metadata node
gives the empty mapping; otherwise the node's text (`or ""`) is parsed. -/
def parse_metadata_defaults (d : SvgDoc) : List (String × String) :=
  match d.releaseVarsMetadata with
  | none => []
  | some txt => parseDefaultLines (txt.getD [])

/-- One emitted `tspan` position: the first line of a block carries an
absolute `y` attribute, every later line a relative `dy` in em units
(render.py:140-148). -/
inductive TspanPos where
  | absY (y : ℚ)
  | relDyEm (em : ℚ)
deriving DecidableEq

/-- The line list built by `set_multiline_block` (render.py:124-131): wrap
the header if it is truthy (non-`None` and nonempty), wrap each item in
input order, concatenate, and truncate to `max_lines_total` if that is
truthy (nonzero) and exceeded. -/
def set_multiline_block_lines (header : Option (List Char))
    (items : List (List Char)) (maxChars maxLinesTotal : Nat) : List (List Char) :=
  let hl := match header with
    | some h => if h.isEmpty then [] else _wrap_words h maxChars
    | none => []
  let lines := hl ++ (items.map (fun it => _wrap_words it maxChars)).flatten
  if maxLinesTotal ≠ 0 ∧ maxLinesTotal < lines.length then lines.take maxLinesTotal
  else lines

/-- `start_y` of `set_multiline_block` (render.py:133-137): with vertical
centering requested and a nonempty line list, the anchor `y` shifted up by
half of `line_h * (lineCount - 1)` with `line_h = font_size * 1.1`. -/
def set_multiline_block_startY (y fontSize : ℚ) (centerVertically : Bool)
    (lines : List (List Char)) : ℚ :=
  if centerVertically ∧ ¬ lines.isEmpty then
    y - fontSize * (11 / 10) * ((lines.length : ℚ) - 1) / 2
  else y

/-- The tspan emission loop of `set_multiline_block` (render.py:140-148):
the first line gets the absolute `start_y`, every further line
`dy="1.1em"`. -/
def emitBlockTspans (startY : ℚ) : List (List Char) → List (TspanPos × List Char)
  | [] => []
  | ln :: rest =>
    (TspanPos.absY startY, ln) ::
      rest.map (fun l => (TspanPos.relDyEm (11 / 10), l))

/-- `set_multiline_block` (render.py:113-149), pure core: the tspan
sequence the block element receives. -/
def set_multiline_block_tspans (y fontSize : ℚ) (centerVertically : Bool)
    (header : Option (List Char)) (items : List (List Char))
    (maxChars maxLinesTotal : Nat) : List (TspanPos × List Char) :=
  let lines := set_multiline_block_lines header items maxChars maxLinesTotal
  emitBlockTspans (set_multiline_block_startY y fontSize centerVertically lines) lines

/-- SVG renderer semantics of the emitted positions: an absolute `y` sets
the baseline, a relative `dy` of `e` em advances the previous baseline by
`e * fontSize` pixels (the element's font size, inherited by its tspans). -/
def realizeBaselinesGo (fontSize cur : ℚ) : List (TspanPos × List Char) → List ℚ
  | [] => []
  | (TspanPos.absY y, _) :: rest => y :: realizeBaselinesGo fontSize y rest
  | (TspanPos.relDyEm e, _) :: rest =>
    (cur + e * fontSize) :: realizeBaselinesGo fontSize (cur + e * fontSize) rest

/-- Baselines of an emitted tspan sequence (initial position `0`, never
used: the first emitted tspan always carries an absolute `y`). -/
def realizeBaselines (fontSize : ℚ) (ts : List (TspanPos × List Char)) : List ℚ :=
  realizeBaselinesGo fontSize 0 ts

/-- The regex character class `[^;]`. -/
def notSemi (c : Char) : Bool := c ≠ ';'

/-- The deterministic continuation of matching the compiled pattern
`--<name>\s*:\s*([^;]+);` (render.py:171) after the literal `--name`
prefix: `\s*`, then `:`, then `\s*([^;]+);`.  Because `[^;]+` is greedy and
cannot cross a `;`, the value group runs to the first `;`; the inner `\s*`
backtracks to leave at least one character to `[^;]+` when everything
before that `;` is whitespace.  Returns (rest of group 1, group 2).
Reading guide: `r1.takeWhile pyIsSpace` is the first `\s*`,
`r2.takeWhile notSemi` the candidate value text up to the first `;`, and
the `min (...)` split point divides it between the second `\s*` and
`[^;]+`. -/
def parseDeclRest (r1 : List Char) : Option (List Char × List Char) :=
  match r1.dropWhile pyIsSpace with
  | ':' :: r2 =>
    if (r2.takeWhile notSemi).isEmpty then none
    else
      match r2.drop (r2.takeWhile notSemi).length with
      | ';' :: _ =>
        some (r1.takeWhile pyIsSpace ++ ':' ::
            (r2.takeWhile notSemi).take
              (min ((r2.takeWhile notSemi).takeWhile pyIsSpace).length
                ((r2.takeWhile notSemi).length - 1)),
          (r2.takeWhile notSemi).drop
            (min ((r2.takeWhile notSemi).takeWhile pyIsSpace).length
              ((r2.takeWhile notSemi).length - 1)))
      | _ => none
  | _ => none

/-- Match of the pattern `--<re.escape(var_name)>\s*:\s*([^;]+);`
(render.py:171) at the start of `css`: `some (g1, g2)` yields group 1
(`--name\s*:\s*`) and group 2 (the value); the full match is
`g1 ++ g2 ++ ";"`.  `re.escape` makes the name a literal. -/
def matchDeclHere (name css : List Char) : Option (List Char × List Char) :=
  if css.take ('-' :: '-' :: name).length = '-' :: '-' :: name then
    (parseDeclRest (css.drop ('-' :: '-' :: name).length)).map
      (fun g => (('-' :: '-' :: name) ++ g.1, g.2))
  else none

/-- `re.sub(pattern, rf"\g<1>{value}\g<3>", css, count=1)` (render.py:173):
scan positions left to right, replace the value group of the leftmost
match, keeping group 1 and the terminating `;`; `none` when there is no
match anywhere (`re.search` fails, render.py:172). -/
def subDeclFirst (name value : List Char) : List Char → Option (List Char)
  | [] => none
  | c :: rest =>
    match matchDeclHere name (c :: rest) with
    | some (g1, g2) =>
      some (g1 ++ value ++ ';' :: (c :: rest).drop (g1.length + g2.length + 1))
    | none => (subDeclFirst name value rest).map (c :: ·)

/-- Match of the pattern `(:root\s*\{)` (render.py:176) at the start of
`css`: returns group 1. -/
def matchRootHere (css : List Char) : Option (List Char) :=
  if css.take 5 = ':' :: 'r' :: 'o' :: 'o' :: 't' :: [] then
    match (css.drop 5).dropWhile pyIsSpace with
    | '{' :: _ =>
      some (':' :: 'r' :: 'o' :: 'o' :: 't' ::
        ((css.drop 5).takeWhile pyIsSpace ++ ['{']))
    | _ => none
  else none

/-- The text `re.sub(r"(:root\s*\{)", rf"\1\n        --{var_name}:{value};",
css, count=1)` (render.py:176) appends after group 1: a newline, eight
spaces, and the new declaration. -/
def rootInsertion (name value : List Char) : List Char :=
  '\n' :: ' ' :: ' ' :: ' ' :: ' ' :: ' ' :: ' ' :: ' ' :: ' ' ::
    '-' :: '-' :: (name ++ ':' :: value ++ [';'])

/-- `re.sub` on the `:root` pattern with `count=1` (render.py:176): insert
the new declaration right after the opening brace of the leftmost
`:root\s*{` match; `none` when there is no match (Python's `re.sub` then
returns the text unchanged). -/
def subRootFirst (name value : List Char) : List Char → Option (List Char)
  | [] => none
  | c :: rest =>
    match matchRootHere (c :: rest) with
    | some g1 => some (g1 ++ rootInsertion name value ++ (c :: rest).drop g1.length)
    | none => (subRootFirst name value rest).map (c :: ·)

/-- `set_css_var_in_style` (render.py:160-178), pure core on the style
text: replace the value of the leftmost existing declaration of the
variable, else insert a new declaration right after the first `:root{`
brace, else (no match for either pattern) leave the text unchanged. -/
def set_css_var_in_style (name value css : List Char) : List Char :=
  match subDeclFirst name value css with
  | some out => out
  | none => (subRootFirst name value css).getD css

/-- Document-level `set_css_var_in_style` (render.py:160-178): raises
`RuntimeError("Missing <style id='css_vars'> in template")` iff the
designated style container is absent from the document; otherwise rewrites
that element's text (`style_el.text or ""`) in place and cannot fail. -/
def set_css_var_doc (d : SvgDoc) (name value : List Char) :
    Except RenderError SvgDoc :=
  match d.cssVarsStyle with
  | none => Except.error RenderError.missingStyleBlock
  | some txt =>
    Except.ok (SvgDoc.mk (some (some (set_css_var_in_style name value (txt.getD []))))
      d.releaseVarsMetadata)

/-- The number of positions of `css` at which the declaration pattern for
`name` matches — the number of declarations of the variable in the text. -/
def countDecls (name : List Char) : List Char → Nat
  | [] => 0
  | c :: rest =>
    (if (matchDeclHere name (c :: rest)).isSome then 1 else 0) + countDecls name rest

/-- The number of positions of `seg ++ suf` inside `seg` at which the
declaration pattern matches (matches may read into `suf`). -/
def countPre (name : List Char) : List Char → List Char → Nat
  | [], _ => 0
  | c :: t, suf =>
    (if (matchDeclHere name (c :: (t ++ suf))).isSome then 1 else 0) + countPre name t suf

/-- `true` iff the `:root\s*\{` pattern matches somewhere in `css`
(`re.search` of the insertion pattern succeeds). -/
def hasRootBlock : List Char → Bool
  | [] => false
  | c :: rest => (matchRootHere (c :: rest)).isSome || hasRootBlock rest

/-- A declaration `--name<ws1>:<tk><body>;` as laid out in the style text:
`tk` is the whitespace the regex captures into group 1 after the colon,
`body` the value text (group 2). -/
def declText (name ws1 tk body : List Char) : List Char :=
  '-' :: '-' :: (name ++ ws1 ++ ':' :: (tk ++ body ++ [';']))

/-- No two adjacent hyphens inside `l`, nor across the seam from `l`'s
last character to `suf`'s first. -/
def ddFreeB : List Char → List Char → Bool
  | [], _ => true
  | [c], suf => !(c == '-' && suf.take 1 == ['-'])
  | c :: c' :: t, suf => !(c == '-' && c' == '-') && ddFreeB (c' :: t) suf

/-- Sanity of a CSS variable name as the renderer uses them (`neon-bg`,
`neon-ink`, `font-label`, `font-text`): nonempty; free of `:`, `;` and
whitespace; no adjacent double hyphen; neither starting nor ending with a
hyphen. -/
def goodVarName (name : List Char) : Prop :=
  name ≠ [] ∧ (∀ c ∈ name, c ≠ ':' ∧ c ≠ ';' ∧ pyIsSpace c = false) ∧
    ddFreeB name [] = true ∧ name.head? ≠ some '-' ∧ name.getLast? ≠ some '-'

/-- Sanity of a patched value (`#B7E718`, a quoted font stack, ...):
nonempty, free of `;`, no adjacent double hyphen. -/
def goodVarValue (v : List Char) : Prop :=
  v ≠ [] ∧ (∀ c ∈ v, c ≠ ';') ∧ ddFreeB v [] = true

instance goodVarName.instDecidable (name : List Char) :
    Decidable (goodVarName name) := by
  unfold goodVarName
  infer_instance

instance goodVarValue.instDecidable (v : List Char) :
    Decidable (goodVarValue v) := by
  unfold goodVarValue
  infer_instance

/-- `true` iff the literal token `--<re.escape(var_name)>` — the fixed
part both regex patterns at render.py:171 and render.py:176 key on —
occurs at no position of `css`: the variable is absent from the style
text in the strongest sense. -/
def noDeclOccB (name : List Char) : List Char → Bool
  | [] => true
  | c :: t =>
    !((c :: t).take ('-' :: '-' :: name).length == '-' :: '-' :: name) &&
      noDeclOccB name t

/-! ## Helper lemmas -/

theorem pyStrip_length_le (s : List Char) : (pyStrip s).length ≤ s.length := by
  unfold pyStrip
  have h1 := (List.dropWhile_sublist (l := s) pyIsSpace).length_le
  have h2 := (List.dropWhile_sublist (l := (s.dropWhile pyIsSpace).reverse) pyIsSpace).length_le
  simp only [List.length_reverse] at *
  omega

theorem pyStrip_eq_nil_of_all_space (s : List Char)
    (h : ∀ c ∈ s, pyIsSpace c = true) : pyStrip s = [] := by
  unfold pyStrip
  have h1 : s.dropWhile pyIsSpace = [] := List.dropWhile_eq_nil_iff.mpr h
  simp [h1]

theorem hardChunksF_mem (w : Nat) (hw : 1 ≤ w) :
    ∀ fuel (s : List Char), s.length ≤ fuel + w → ∀ ln ∈ hardChunksF fuel w s,
      ln.length ≤ w ∨ ∃ c, ln = c ++ ['-'] ∧ c.length = w := by
  intro fuel
  induction fuel with
  | zero =>
    intro s hs ln hln
    unfold hardChunksF at hln
    split at hln
    · simp at hln
    · simp at hln
      subst hln
      left
      omega
  | succ fuel ih =>
    intro s hs ln hln
    unfold hardChunksF at hln
    split at hln
    · rename_i hlen
      rcases List.mem_cons.1 hln with h | h
      · right
        refine ⟨s.take w, h, ?_⟩
        simp [List.length_take]
        omega
      · exact ih (s.drop w) (by simp [List.length_drop]; omega) ln h
    · rename_i hlen
      split at hln
      · simp at hln
      · simp at hln
        subst hln
        left
        omega

/-! ## Claim theorems: wrapping -/

/-- C1: for every string `s` and width `w ≥ 1`, every line of `wrap(s, w)`
either has trimmed length at most `w`, or is a hard-break chunk: exactly `w`
characters followed by a trailing hyphen (the final remainder chunk of a
hard break has length at most `w` and falls under the first disjunct). -/
theorem C1_wrap_line_widths (s : List Char) (w : Nat) (hw : 1 ≤ w) :
    ∀ ln ∈ _wrap_words s w,
      (pyStrip ln).length ≤ w ∨ ∃ c, ln = c ++ ['-'] ∧ c.length = w := by
  intro ln hln
  unfold _wrap_words at hln
  by_cases h0 : (pyStrip s).isEmpty
  · simp [h0] at hln
    subst hln
    left
    simp [pyStrip]
  · simp only [h0, Bool.false_eq_true, if_false] at hln
    by_cases h1 : ((greedyLines w (splitRuns (pyStrip s)) []).flatMap (hardBreakLine w)).isEmpty
    · simp only [h1, if_true] at hln
      simp at hln
      subst hln
      left
      simp [pyStrip]
    · simp only [h1, Bool.false_eq_true, if_false] at hln
      obtain ⟨ln0, -, hmem⟩ := List.mem_flatMap.1 hln
      unfold hardBreakLine at hmem
      split at hmem
      · rename_i hle
        simp at hmem
        subst hmem
        left
        exact le_trans (pyStrip_length_le ln) hle
      · rcases hardChunksF_mem w hw ln0.length ln0 (by omega) ln hmem with h | h
        · exact Or.inl (le_trans (pyStrip_length_le ln) h)
        · exact Or.inr h

/-- Witness for C1 at a concrete input. -/
theorem C1_wrap_line_widths_witness :
    1 ≤ 5 ∧ ∀ ln ∈ _wrap_words "hello world".toList 5,
      (pyStrip ln).length ≤ 5 ∨ ∃ c, ln = c ++ ['-'] ∧ c.length = 5 :=
  ⟨by decide, C1_wrap_line_widths "hello world".toList 5 (by decide)⟩

/-- C8: for every width `w ≥ 1`, wrapping the empty string, any
whitespace-only string, or a `None`-equivalent input yields exactly one
line, the empty line. -/
theorem C8_wrap_blank (w : Nat) (_hw : 1 ≤ w) :
    _wrap_words [] w = [[]] ∧ _wrap_words_opt none w = [[]] ∧
      ∀ s, (∀ c ∈ s, pyIsSpace c = true) → _wrap_words s w = [[]] := by
  have key : ∀ s, (∀ c ∈ s, pyIsSpace c = true) → _wrap_words s w = [[]] := by
    intro s hs
    unfold _wrap_words
    rw [pyStrip_eq_nil_of_all_space s hs]
    simp
  exact ⟨key [] (by simp), key [] (by simp), key⟩

/-- Witness for C8 at concrete inputs. -/
theorem C8_wrap_blank_witness :
    1 ≤ 7 ∧ _wrap_words [] 7 = [[]] ∧ _wrap_words_opt none 7 = [[]] ∧
      _wrap_words "   ".toList 7 = [[]] :=
  ⟨by decide, (C8_wrap_blank 7 (by decide)).1, (C8_wrap_blank 7 (by decide)).2.1,
    (C8_wrap_blank 7 (by decide)).2.2 "   ".toList (by decide)⟩

/-- C4: for every string `s`, width `w ≥ 1` and line limit `n ≥ 1` such
that the natural wrap of `s` has more than `n` lines,
`wrap(s, w, maxLines = n)` yields exactly `n` lines, the last line is some
line content with a single appended ellipsis marker, and the last line's
length is at most `w`. -/
theorem C4_truncation_ellipsis (s : List Char) (w n : Nat) (hw : 1 ≤ w)
    (hn : 1 ≤ n) (hexceed : n < (_wrap_words s w).length) :
    (set_wrapped_text_lines s w (some n)).length = n ∧
    ∃ pre core, set_wrapped_text_lines s w (some n) = pre ++ [core ++ ['…']] ∧
      (core ++ ['…']).length ≤ w := by
  have hn0 : n ≠ 0 := by omega
  unfold set_wrapped_text_lines
  dsimp only
  rw [if_pos ⟨hn0, hexceed⟩]
  have htake : ((_wrap_words s w).take n).length = n := by
    simp [List.length_take]
    omega
  refine ⟨?_, ?_⟩
  · simp only [List.length_append, List.length_dropLast, htake, List.length_cons,
      List.length_nil]
    omega
  · set last := (((_wrap_words s w).take n).getLast?.getD []) with hlast
    by_cases hc : w ≤ last.length
    · refine ⟨((_wrap_words s w).take n).dropLast, last.take (w - 1), ?_, ?_⟩
      · unfold ellipsize
        rw [if_pos hc]
      · simp [List.length_take]
        omega
    · refine ⟨((_wrap_words s w).take n).dropLast, last, ?_, ?_⟩
      · unfold ellipsize
        rw [if_neg hc]
      · simp
        omega

/-- Witness for C4 at a concrete input. -/
theorem C4_truncation_ellipsis_witness :
    1 ≤ 3 ∧ 1 ≤ 2 ∧ 2 < (_wrap_words "abcdefghij".toList 3).length ∧
      ((set_wrapped_text_lines "abcdefghij".toList 3 (some 2)).length = 2 ∧
       ∃ pre core, set_wrapped_text_lines "abcdefghij".toList 3 (some 2) =
           pre ++ [core ++ ['…']] ∧ (core ++ ['…']).length ≤ 3) :=
  ⟨by decide, by decide, by decide,
    C4_truncation_ellipsis "abcdefghij".toList 3 2 (by decide) (by decide) (by decide)⟩

/-! ## Claim theorems: resolver, estimator, metadata -/

/-- C2 counterexample: with record `{catalog: "X"}` (lower-case key present
with a non-null value) and defaults `{CATALOG: "Y"}`, resolving the key
`"CATALOG"` returns `"Y"`, not the record value `"X"` that the claim's
"under the lower-case key" reading demands: the source consults the record
under the key exactly as supplied. -/
theorem C2_resolver_counterexample :
    List.lookup "catalog" [("catalog", some "X")] = some (some "X") ∧
    render_get [("catalog", some "X")] [("CATALOG", "Y")] "CATALOG" "Z" = "Y" ∧
    resolve_spec [("catalog", some "X")] [("CATALOG", "Y")] "CATALOG" "Z" = "X" ∧
    render_get [("catalog", some "X")] [("CATALOG", "Y")] "CATALOG" "Z" ≠
      resolve_spec [("catalog", some "X")] [("CATALOG", "Y")] "CATALOG" "Z" := by
  refine ⟨rfl, rfl, ?_, ?_⟩ <;> decide

/-- C2 (amended): for every record, defaults, key and fallback, the resolver
returns the record's value when the record holds a non-null value under the
key exactly as supplied; otherwise the Template Defaults value under the
upper-cased key when present; otherwise the fallback — and it is a total
function into strings, so it never fails. -/
theorem C2_resolver_precedence (data : List (String × Option String))
    (defaults : List (String × String)) (key fallback : String) :
    (∀ v, data.lookup key = some (some v) →
      render_get data defaults key fallback = v) ∧
    ((data.lookup key = none ∨ data.lookup key = some none) →
      ∀ d, defaults.lookup (pyUpper key) = some d →
        render_get data defaults key fallback = d) ∧
    ((data.lookup key = none ∨ data.lookup key = some none) →
      defaults.lookup (pyUpper key) = none →
        render_get data defaults key fallback = fallback) := by
  unfold render_get
  refine ⟨?_, ?_, ?_⟩
  · intro v hv
    rw [hv]
  · rintro (h | h) d hd <;> rw [h, hd] <;> rfl
  · rintro (h | h) hd <;> rw [h, hd] <;> rfl

/-- Witness for C2 (amended): the spec's three precedence examples. -/
theorem C2_resolver_precedence_witness :
    render_get [("catalog", some "X")] [("CATALOG", "Y")] "catalog" "Z" = "X" ∧
    render_get [] [("CATALOG", "Y")] "catalog" "Z" = "Y" ∧
    render_get [] [] "catalog" "Z" = "Z" :=
  ⟨(C2_resolver_precedence [("catalog", some "X")] [("CATALOG", "Y")] "catalog" "Z").1
      "X" rfl,
   (C2_resolver_precedence [] [("CATALOG", "Y")] "catalog" "Z").2.1
      (Or.inl rfl) "Y" (by decide),
   (C2_resolver_precedence [] [] "catalog" "Z").2.2 (Or.inl rfl) rfl⟩

/-- C6: the width estimator computes
`max(8, floor(availableWidth / max(1, averageGlyphWidth)))` with
`availableWidth = max(0, rightBoundaryX - paddingPx - elementX)` and
`averageGlyphWidth = fontSize * (0.60 + letterSpacing)`, its result is
always at least 8, and a non-positive available width yields exactly 8. -/
theorem C6_estimator_floor (x fontSize rightBoundaryX paddingPx : ℚ) :
    _estimate_max_chars_for_element x fontSize rightBoundaryX paddingPx =
      max 8 ⌊(max 0 (rightBoundaryX - paddingPx - x)) /
        max 1 (fontSize * (6 / 10 + TRACK_LETTER_SPACING_EM))⌋ ∧
    8 ≤ _estimate_max_chars_for_element x fontSize rightBoundaryX paddingPx ∧
    (rightBoundaryX - paddingPx - x ≤ 0 →
      _estimate_max_chars_for_element x fontSize rightBoundaryX paddingPx = 8) := by
  unfold _estimate_max_chars_for_element
  refine ⟨rfl, le_max_left _ _, ?_⟩
  intro h
  have h0 : max 0 (rightBoundaryX - paddingPx - x) = 0 := max_eq_left h
  simp only [h0, zero_div, Int.floor_zero]
  rfl

/-- Witness for C6 at a concrete input with negative available width
(the source's right-column geometry with an element far right of the
boundary). -/
theorem C6_estimator_floor_witness :
    (703 - 10 - 1000 : ℚ) ≤ 0 ∧
    _estimate_max_chars_for_element 1000 42 703 10 = 8 :=
  ⟨by norm_num, (C6_estimator_floor 1000 42 703 10).2.2 (by norm_num)⟩

/-- C10: a template document with no metadata container yields the empty
defaults mapping — no error is possible, `parse_metadata_defaults` is total
— and every resolution whose key misses the record then falls through to
the caller-supplied fallback. -/
theorem C10_missing_metadata_defaults (d : SvgDoc)
    (h : d.releaseVarsMetadata = none) :
    parse_metadata_defaults d = [] ∧
    ∀ (data : List (String × Option String)) (key fallback : String),
      (data.lookup key = none ∨ data.lookup key = some none) →
      render_get data (parse_metadata_defaults d) key fallback = fallback := by
  have hp : parse_metadata_defaults d = [] := by
    unfold parse_metadata_defaults
    rw [h]
  refine ⟨hp, ?_⟩
  intro data key fallback hmiss
  rw [hp]
  unfold render_get
  rcases hmiss with h1 | h1 <;> rw [h1] <;> rfl

/-- Witness for C10: a document whose metadata container is absent. -/
theorem C10_missing_metadata_defaults_witness :
    (SvgDoc.mk (some (some [])) none).releaseVarsMetadata = none ∧
    (parse_metadata_defaults (SvgDoc.mk (some (some [])) none) = [] ∧
     ∀ (data : List (String × Option String)) (key fallback : String),
       (data.lookup key = none ∨ data.lookup key = some none) →
       render_get data (parse_metadata_defaults (SvgDoc.mk (some (some [])) none))
         key fallback = fallback) :=
  ⟨rfl, C10_missing_metadata_defaults (SvgDoc.mk (some (some [])) none) rfl⟩

/-! ## Block layout lemmas and claim C5 -/

theorem realizeBaselinesGo_map_rel (fs e : ℚ) (rest : List (List Char)) :
    ∀ cur : ℚ,
      realizeBaselinesGo fs cur (rest.map (fun l => (TspanPos.relDyEm e, l))) =
        (List.range rest.length).map (fun (i : ℕ) => cur + e * fs * ((i : ℚ) + 1)) := by
  induction rest with
  | nil => intro cur; rfl
  | cons l rest ih =>
    intro cur
    simp only [List.map_cons, realizeBaselinesGo]
    rw [ih (cur + e * fs), List.length_cons, List.range_succ_eq_map,
      List.map_cons, List.map_map]
    refine List.cons_eq_cons.mpr ⟨by push_cast; ring, ?_⟩
    apply List.map_congr_left
    intro i _
    simp only [Function.comp_apply]
    push_cast
    ring

theorem realizeBaselines_emit (fs startY : ℚ) (lines : List (List Char)) :
    realizeBaselines fs (emitBlockTspans startY lines) =
      (List.range lines.length).map (fun (i : ℕ) => startY + fs * (11 / 10) * (i : ℚ)) := by
  cases lines with
  | nil => rfl
  | cons ln rest =>
    unfold realizeBaselines emitBlockTspans
    simp only [realizeBaselinesGo]
    rw [realizeBaselinesGo_map_rel fs (11 / 10) rest startY, List.length_cons,
      List.range_succ_eq_map, List.map_cons, List.map_map]
    refine List.cons_eq_cons.mpr ⟨by norm_num, ?_⟩
    apply List.map_congr_left
    intro i _
    simp only [Function.comp_apply]
    push_cast
    ring

/-- C5: in `set_multiline_block`, with per-line advance
`fontSize * 1.1`: when vertical centering is requested and `n` lines
result, the first baseline is the anchor `y` minus half of
`(n - 1) * advance`; without centering the first baseline is exactly `y`;
and each subsequent baseline is offset from the previous by exactly one
advance. -/
theorem C5_block_vertical_layout (y fontSize : ℚ) (centerVertically : Bool)
    (header : Option (List Char)) (items : List (List Char))
    (maxChars maxLinesTotal : Nat)
    (hne : set_multiline_block_lines header items maxChars maxLinesTotal ≠ []) :
    (centerVertically = true →
      (realizeBaselines fontSize (set_multiline_block_tspans y fontSize
          centerVertically header items maxChars maxLinesTotal)).head? =
        some (y - fontSize * (11 / 10) *
          (((set_multiline_block_lines header items maxChars
              maxLinesTotal).length : ℚ) - 1) / 2)) ∧
    (centerVertically = false →
      (realizeBaselines fontSize (set_multiline_block_tspans y fontSize
          centerVertically header items maxChars maxLinesTotal)).head? = some y) ∧
    (∀ (i : Nat) (y1 y2 : ℚ),
      (realizeBaselines fontSize (set_multiline_block_tspans y fontSize
          centerVertically header items maxChars maxLinesTotal))[i]? = some y1 →
      (realizeBaselines fontSize (set_multiline_block_tspans y fontSize
          centerVertically header items maxChars maxLinesTotal))[i + 1]? = some y2 →
      y2 - y1 = fontSize * (11 / 10)) := by
  obtain ⟨ln, rest, hcons⟩ := List.exists_cons_of_ne_nil hne
  have hclosed : realizeBaselines fontSize (set_multiline_block_tspans y fontSize
      centerVertically header items maxChars maxLinesTotal) =
      (List.range (set_multiline_block_lines header items maxChars
          maxLinesTotal).length).map
        (fun (i : ℕ) => set_multiline_block_startY y fontSize centerVertically
          (set_multiline_block_lines header items maxChars maxLinesTotal) +
          fontSize * (11 / 10) * (i : ℚ)) :=
    realizeBaselines_emit fontSize _ _
  have hMapGet : ∀ (n : Nat) (f : Nat → ℚ) (i : Nat) (v : ℚ),
      ((List.range n).map f)[i]? = some v → i < n ∧ v = f i := by
    intro n f i v hv
    rcases Nat.lt_or_ge i n with hlt | hge
    · rw [List.getElem?_map, List.getElem?_range hlt] at hv
      simp at hv
      exact ⟨hlt, hv.symm⟩
    · rw [List.getElem?_map, List.getElem?_eq_none (by simpa using hge)] at hv
      simp at hv
  have hlen : (set_multiline_block_lines header items maxChars
      maxLinesTotal).length = rest.length + 1 := by
    rw [hcons]
    rfl
  refine ⟨?_, ?_, ?_⟩
  · intro hc
    have hstart : set_multiline_block_startY y fontSize centerVertically
        (set_multiline_block_lines header items maxChars maxLinesTotal) =
        y - fontSize * (11 / 10) *
          (((set_multiline_block_lines header items maxChars
              maxLinesTotal).length : ℚ) - 1) / 2 := by
      unfold set_multiline_block_startY
      rw [if_pos ⟨by simp [hc], by simp [hcons]⟩]
    rw [hclosed, hstart, hlen, List.range_succ_eq_map, List.map_cons,
      List.head?_cons]
    congr 1
    push_cast
    ring
  · intro hc
    have hstart : set_multiline_block_startY y fontSize centerVertically
        (set_multiline_block_lines header items maxChars maxLinesTotal) = y := by
      unfold set_multiline_block_startY
      rw [if_neg]
      simp [hc]
    rw [hclosed, hstart, hlen, List.range_succ_eq_map, List.map_cons,
      List.head?_cons]
    congr 1
    push_cast
    ring
  · intro i y1 y2 h1 h2
    rw [hclosed] at h1 h2
    obtain ⟨-, hv1⟩ := hMapGet _ _ _ _ h1
    obtain ⟨-, hv2⟩ := hMapGet _ _ _ _ h2
    rw [hv1, hv2]
    push_cast
    ring

/-- Witness for C5: the spec's concrete example — anchor `y = 500`,
`fontSize = 50` (advance 55) and 3 resulting lines, first baseline
`500 - 55 = 445`. -/
theorem C5_block_vertical_layout_witness :
    set_multiline_block_lines (some "SIDE A".toList)
      ["Intro".toList, "Outro".toList] 22 15 ≠ [] ∧
    (realizeBaselines 50 (set_multiline_block_tspans 500 50 true
      (some "SIDE A".toList) ["Intro".toList, "Outro".toList] 22 15)).head? =
      some 445 := by
  have hne : set_multiline_block_lines (some "SIDE A".toList)
      ["Intro".toList, "Outro".toList] 22 15 ≠ [] := by decide
  refine ⟨hne, ?_⟩
  have h := (C5_block_vertical_layout 500 50 true (some "SIDE A".toList)
      ["Intro".toList, "Outro".toList] 22 15 hne).1 rfl
  have hlen : (set_multiline_block_lines (some "SIDE A".toList)
      ["Intro".toList, "Outro".toList] 22 15).length = 3 := by decide
  rw [hlen] at h
  rw [h]
  norm_num

/-! ## Style patcher helper lemmas -/

theorem pyIsSpace_ne_semi {c : Char} (h : pyIsSpace c = true) : c ≠ ';' := by
  rintro rfl
  simp [pyIsSpace] at h

theorem pyIsSpace_ne_dash {c : Char} (h : pyIsSpace c = true) : c ≠ '-' := by
  rintro rfl
  simp [pyIsSpace] at h

theorem takeWhile_append_of_all {p : Char → Bool} (l r : List Char)
    (hl : ∀ c ∈ l, p c = true) :
    (l ++ r).takeWhile p = l ++ r.takeWhile p ∧
    (l ++ r).dropWhile p = r.dropWhile p := by
  induction l with
  | nil => simp
  | cons c t ih =>
    have hc : p c = true := hl c (List.mem_cons_self c t)
    have iht := ih (fun d hd => hl d (List.mem_cons_of_mem c hd))
    constructor
    · rw [List.cons_append, List.takeWhile_cons_of_pos hc, iht.1, List.cons_append]
    · rw [List.cons_append, List.dropWhile_cons_of_pos hc, iht.2]

theorem drop_length_takeWhile (p : Char → Bool) (l : List Char) :
    l.drop (l.takeWhile p).length = l.dropWhile p := by
  induction l with
  | nil => rfl
  | cons c t ih =>
    by_cases hc : p c = true
    · rw [List.takeWhile_cons_of_pos hc, List.dropWhile_cons_of_pos hc,
        List.length_cons, List.drop_succ_cons, ih]
    · rw [List.takeWhile_cons_of_neg hc, List.dropWhile_cons_of_neg hc]
      rfl

theorem subDeclFirst_eq_none_iff (name value css : List Char) :
    subDeclFirst name value css = none ↔ countDecls name css = 0 := by
  induction css with
  | nil => simp [subDeclFirst, countDecls]
  | cons c rest ih =>
    unfold subDeclFirst countDecls
    cases hm : matchDeclHere name (c :: rest) with
    | some g =>
      obtain ⟨g1, g2⟩ := g
      simp [hm]
    | none => simp [hm, ih]

theorem subRootFirst_eq_none_iff (name value css : List Char) :
    subRootFirst name value css = none ↔ hasRootBlock css = false := by
  induction css with
  | nil => simp [subRootFirst, hasRootBlock]
  | cons c rest ih =>
    unfold subRootFirst hasRootBlock
    cases hm : matchRootHere (c :: rest) with
    | some g => simp [hm]
    | none => simp [hm, ih]

/-! ## Claim theorems: style patcher error handling -/

/-- C7: the document-level patcher fails with the `MissingStyleBlock`
condition if and only if the document has no designated style container;
any failure is that condition; and with the container present it always
succeeds. -/
theorem C7_missing_style_block (d : SvgDoc) (name value : List Char) :
    (set_css_var_doc d name value = Except.error RenderError.missingStyleBlock ↔
      d.cssVarsStyle = none) ∧
    (∀ e, set_css_var_doc d name value = Except.error e →
      e = RenderError.missingStyleBlock) ∧
    (d.cssVarsStyle ≠ none →
      ∃ d', set_css_var_doc d name value = Except.ok d') := by
  unfold set_css_var_doc
  cases h : d.cssVarsStyle with
  | none => simp
  | some txt => simp

/-- Witness for C7: a document without the style container fails with
`MissingStyleBlock`; one with the container (even with `text = None`)
succeeds. -/
theorem C7_missing_style_block_witness :
    set_css_var_doc (SvgDoc.mk none none) "neon-bg".toList "#FF0000".toList =
      Except.error RenderError.missingStyleBlock ∧
    (∃ d', set_css_var_doc (SvgDoc.mk (some none) none) "neon-bg".toList
      "#FF0000".toList = Except.ok d') :=
  ⟨(C7_missing_style_block (SvgDoc.mk none none) "neon-bg".toList
      "#FF0000".toList).1.mpr rfl,
   (C7_missing_style_block (SvgDoc.mk (some none) none) "neon-bg".toList
      "#FF0000".toList).2.2 (by simp)⟩

/-- C9: when the variable has no existing declaration in the style text and
the text has no `:root{` rule block, `set_css_var_in_style` returns the
text completely unchanged — nothing is inserted and no error is raised
(the function is total). -/
theorem C9_no_decl_no_root_unchanged (name value css : List Char)
    (hdecl : countDecls name css = 0) (hroot : hasRootBlock css = false) :
    set_css_var_in_style name value css = css := by
  unfold set_css_var_in_style
  rw [(subDeclFirst_eq_none_iff name value css).mpr hdecl,
    (subRootFirst_eq_none_iff name value css).mpr hroot]
  rfl

/-- Witness for C9: a style text with a rule block but no `:root{` and no
declaration of `neon-bg` is left unchanged. -/
theorem C9_no_decl_no_root_unchanged_witness :
    countDecls "neon-bg".toList "body{color:red;}".toList = 0 ∧
    hasRootBlock "body{color:red;}".toList = false ∧
    set_css_var_in_style "neon-bg".toList "#FF0000".toList
      "body{color:red;}".toList = "body{color:red;}".toList :=
  ⟨by decide, by decide,
   C9_no_decl_no_root_unchanged "neon-bg".toList "#FF0000".toList
     "body{color:red;}".toList (by decide) (by decide)⟩

/-- C3 counterexample: patching `neon-bg` to `#FF0000` and then to
`#00FF00` in an empty style text (no existing declaration and no `:root{`
block) leaves the text empty — zero declarations of the variable remain,
not exactly one carrying the second value. -/
theorem C3_style_patch_counterexample :
    set_css_var_in_style "neon-bg".toList "#00FF00".toList
      (set_css_var_in_style "neon-bg".toList "#FF0000".toList []) = [] ∧
    countDecls "neon-bg".toList
      (set_css_var_in_style "neon-bg".toList "#00FF00".toList
        (set_css_var_in_style "neon-bg".toList "#FF0000".toList [])) = 0 :=
  ⟨rfl, rfl⟩

theorem notSemi_eq_true {c : Char} : notSemi c = true ↔ c ≠ ';' := by
  simp [notSemi]

theorem parseDeclRest_construct (ws1 mid rest : List Char)
    (hws1 : ∀ c ∈ ws1, pyIsSpace c = true)
    (hmid : ∀ c ∈ mid, c ≠ ';') (hne : mid ≠ []) :
    parseDeclRest (ws1 ++ ':' :: (mid ++ ';' :: rest)) =
      some (ws1 ++ ':' ::
          mid.take (min (mid.takeWhile pyIsSpace).length (mid.length - 1)),
        mid.drop (min (mid.takeWhile pyIsSpace).length (mid.length - 1))) := by
  have hws := takeWhile_append_of_all (p := pyIsSpace) ws1
    (':' :: (mid ++ ';' :: rest)) hws1
  have htw : (ws1 ++ ':' :: (mid ++ ';' :: rest)).takeWhile pyIsSpace = ws1 := by
    rw [hws.1, List.takeWhile_cons_of_neg (by decide)]
    simp
  have hdw : (ws1 ++ ':' :: (mid ++ ';' :: rest)).dropWhile pyIsSpace =
      ':' :: (mid ++ ';' :: rest) := by
    rw [hws.2, List.dropWhile_cons_of_neg (by decide)]
  have hmid' : ∀ c ∈ mid, notSemi c = true := fun c hc =>
    notSemi_eq_true.mpr (hmid c hc)
  have hbody : (mid ++ ';' :: rest).takeWhile notSemi = mid := by
    rw [(takeWhile_append_of_all (p := notSemi) mid (';' :: rest) hmid').1,
      List.takeWhile_cons_of_neg (by decide)]
    simp
  have hemp : mid.isEmpty = false := by
    cases mid with
    | nil => exact absurd rfl hne
    | cons a t => rfl
  simp only [parseDeclRest, htw, hdw, hbody, hemp, Bool.false_eq_true, if_false]
  rw [List.drop_left]
  rfl

theorem declText_shape (name ws1 tk body suf : List Char) :
    declText name ws1 tk body ++ suf =
      ('-' :: '-' :: name) ++ (ws1 ++ ':' :: ((tk ++ body) ++ ';' :: suf)) := by
  simp [declText]

theorem matchDeclHere_construct (name ws1 tk body suf : List Char)
    (hws1 : ∀ c ∈ ws1, pyIsSpace c = true)
    (hmid : ∀ c ∈ tk ++ body, c ≠ ';') (hne : tk ++ body ≠ []) :
    matchDeclHere name (declText name ws1 tk body ++ suf) =
      some ('-' :: '-' :: (name ++ ws1 ++ ':' ::
          (tk ++ body).take (min ((tk ++ body).takeWhile pyIsSpace).length
            ((tk ++ body).length - 1))),
        (tk ++ body).drop (min ((tk ++ body).takeWhile pyIsSpace).length
          ((tk ++ body).length - 1))) := by
  rw [declText_shape]
  simp only [matchDeclHere]
  rw [List.take_left, if_pos rfl, List.drop_left,
    parseDeclRest_construct ws1 (tk ++ body) suf hws1 hmid hne]
  simp [List.append_assoc]

theorem parseDeclRest_inv (r1 h1 h2 : List Char)
    (h : parseDeclRest r1 = some (h1, h2)) :
    ∃ ws1 tk rest,
      r1 = ws1 ++ ':' :: (tk ++ h2 ++ ';' :: rest) ∧
      h1 = ws1 ++ ':' :: tk ∧
      (∀ c ∈ ws1, pyIsSpace c = true) ∧ (∀ c ∈ tk, pyIsSpace c = true) ∧
      h2 ≠ [] ∧ (∀ c ∈ h2, c ≠ ';') := by
  unfold parseDeclRest at h
  cases hdw : r1.dropWhile pyIsSpace with
  | nil =>
    rw [hdw] at h
    simp at h
  | cons d r2 =>
    rw [hdw] at h
    split at h
    case h_2 => simp at h
    rename_i r2' heqcons
    obtain ⟨hd, hr2⟩ : d = ':' ∧ r2 = r2' := by
      injection heqcons with hd hr2
      exact ⟨hd, hr2⟩
    subst hd
    subst hr2
    split at h
    case isTrue => simp at h
    rename_i hemp
    split at h
    case h_2 => simp at h
    rename_i tail heqdrop
    injection h with h
    obtain ⟨hh1, hh2⟩ : h1 = r1.takeWhile pyIsSpace ++ ':' ::
        (r2.takeWhile notSemi).take
          (min ((r2.takeWhile notSemi).takeWhile pyIsSpace).length
            ((r2.takeWhile notSemi).length - 1)) ∧
        h2 = (r2.takeWhile notSemi).drop
          (min ((r2.takeWhile notSemi).takeWhile pyIsSpace).length
            ((r2.takeWhile notSemi).length - 1)) := by
      refine ⟨congrArg Prod.fst h.symm, congrArg Prod.snd h.symm⟩
    set body := r2.takeWhile notSemi with hbodydef
    set p := min (body.takeWhile pyIsSpace).length (body.length - 1) with hpdef
    have hbody_ne : body ≠ [] := by
      intro hcon
      rw [hcon] at hemp
      simp at hemp
    have hr2shape : r2 = body ++ ';' :: tail := by
      conv_lhs => rw [← List.takeWhile_append_dropWhile (p := notSemi) (l := r2)]
      rw [← hbodydef, ← drop_length_takeWhile notSemi r2, ← hbodydef, heqdrop]
    have hr1shape : r1 = r1.takeWhile pyIsSpace ++ ':' :: r2 := by
      conv_lhs => rw [← List.takeWhile_append_dropWhile (p := pyIsSpace) (l := r1)]
      rw [hdw]
    have hp_le_ws : p ≤ (body.takeWhile pyIsSpace).length := min_le_left _ _
    have hp_lt : p < body.length := by
      have h1' : 1 ≤ body.length := List.length_pos.mpr hbody_ne
      have := min_le_right (body.takeWhile pyIsSpace).length (body.length - 1)
      omega
    refine ⟨r1.takeWhile pyIsSpace, body.take p, tail, ?_, ?_, ?_, ?_, ?_, ?_⟩
    · rw [hh2, List.take_append_drop, ← hr2shape, ← hr1shape]
    · exact hh1
    · intro c hc
      exact List.mem_takeWhile_imp hc
    · intro c hc
      have htake : body.take p = (body.takeWhile pyIsSpace).take p := by
        conv_lhs => rw [← List.takeWhile_append_dropWhile (p := pyIsSpace) (l := body)]
        rw [List.take_append_eq_append_take, Nat.sub_eq_zero_of_le hp_le_ws,
          List.take_zero, List.append_nil]
      rw [htake] at hc
      exact List.mem_takeWhile_imp (List.take_subset _ _ hc)
    · rw [hh2]
      intro hcon
      have := congrArg List.length hcon
      simp [List.length_drop] at this
      omega
    · intro c hc
      rw [hh2] at hc
      have : c ∈ body := List.drop_subset _ _ hc
      exact notSemi_eq_true.mp (List.mem_takeWhile_imp this)

theorem matchDeclHere_inv (name x g1 g2 : List Char)
    (h : matchDeclHere name x = some (g1, g2)) :
    ∃ ws1 tk rest,
      x = declText name ws1 tk g2 ++ rest ∧
      g1 = '-' :: '-' :: (name ++ ws1 ++ ':' :: tk) ∧
      (∀ c ∈ ws1, pyIsSpace c = true) ∧ (∀ c ∈ tk, pyIsSpace c = true) ∧
      g2 ≠ [] ∧ (∀ c ∈ g2, c ≠ ';') ∧
      x.drop (g1.length + g2.length + 1) = rest := by
  unfold matchDeclHere at h
  split at h
  case isFalse => simp at h
  rename_i htake
  obtain ⟨⟨h1, h2⟩, hp, heq⟩ := Option.map_eq_some'.mp h
  obtain ⟨hg1, hg2⟩ : g1 = ('-' :: '-' :: name) ++ h1 ∧ g2 = h2 := by
    refine ⟨(congrArg Prod.fst heq).symm, (congrArg Prod.snd heq).symm⟩
  subst hg2
  obtain ⟨ws1, tk, rest, hr1, hh1, hws1, htk, hne, hsemi⟩ :=
    parseDeclRest_inv _ _ _ hp
  have hx : x = declText name ws1 tk g2 ++ rest := by
    conv_lhs => rw [← List.take_append_drop ('-' :: '-' :: name).length x]
    rw [htake, hr1, declText_shape]
  have hg1' : g1 = '-' :: '-' :: (name ++ ws1 ++ ':' :: tk) := by
    rw [hg1, hh1]
    simp
  have hlen : g1.length + g2.length + 1 = (declText name ws1 tk g2).length := by
    rw [hg1']
    simp [declText]
    omega
  refine ⟨ws1, tk, rest, hx, hg1', hws1, htk, hne, hsemi, ?_⟩
  rw [hx, hlen, List.drop_left]

theorem subDeclFirst_some_inv (name value : List Char) :
    ∀ css out, subDeclFirst name value css = some out →
    ∃ pre ws1 tk body rest,
      css = pre ++ declText name ws1 tk body ++ rest ∧
      out = pre ++ declText name ws1 tk value ++ rest ∧
      (∀ c ∈ ws1, pyIsSpace c = true) ∧ (∀ c ∈ tk, pyIsSpace c = true) ∧
      body ≠ [] ∧ (∀ c ∈ body, c ≠ ';') ∧
      (∀ j, j < pre.length →
        matchDeclHere name
          (pre.drop j ++ declText name ws1 tk body ++ rest) = none) := by
  intro css
  induction css with
  | nil =>
    intro out h
    simp [subDeclFirst] at h
  | cons c rest0 ih =>
    intro out h
    unfold subDeclFirst at h
    cases hm : matchDeclHere name (c :: rest0) with
    | some g =>
      obtain ⟨g1, g2⟩ := g
      rw [hm] at h
      obtain ⟨ws1, tk, rest, hx, hg1, hws1, htk, hne, hsemi, hdrop⟩ :=
        matchDeclHere_inv name (c :: rest0) g1 g2 hm
      refine ⟨[], ws1, tk, g2, rest, by simpa using hx, ?_, hws1, htk, hne, hsemi, ?_⟩
      · have hout : out = g1 ++ value ++ ';' :: rest := by
          rw [← hdrop]
          exact (Option.some_injective _ h).symm
        rw [hout, hg1]
        simp [declText]
      · intro j hj
        simp at hj
    | none =>
      rw [hm] at h
      obtain ⟨out', hout', hcons⟩ := Option.map_eq_some'.mp h
      obtain ⟨pre, ws1, tk, body, rest, hcss, hout, hws1, htk, hne, hsemi, hnone⟩ :=
        ih out' hout'
      refine ⟨c :: pre, ws1, tk, body, rest, ?_, ?_, hws1, htk, hne, hsemi, ?_⟩
      · rw [hcss]
        simp
      · rw [← hcons, hout]
        rfl
      · intro j hj
        cases j with
        | zero =>
          simpa [← hcss] using hm
        | succ j' =>
          have hj' : j' < pre.length := by
            simpa using hj
          simpa using hnone j' hj'

theorem bool_and_true {a b : Bool} : (a && b) = true ↔ a = true ∧ b = true := by
  simp

theorem countDecls_cons (name : List Char) (c : Char) (rest : List Char) :
    countDecls name (c :: rest) =
      (if (matchDeclHere name (c :: rest)).isSome then 1 else 0) +
        countDecls name rest := rfl

theorem countPre_cons (name : List Char) (c : Char) (t suf : List Char) :
    countPre name (c :: t) suf =
      (if (matchDeclHere name (c :: (t ++ suf))).isSome then 1 else 0) +
        countPre name t suf := rfl

theorem countDecls_append (name : List Char) :
    ∀ u w, countDecls name (u ++ w) = countPre name u w + countDecls name w := by
  intro u
  induction u with
  | nil =>
    intro w
    simp [countPre]
  | cons c t ih =>
    intro w
    show countDecls name (c :: (t ++ w)) = _
    rw [countDecls_cons, countPre_cons, ih w]
    omega

theorem countPre_ge_one (name : List Char) (u d suf : List Char)
    (hd : (matchDeclHere name (d ++ suf)).isSome = true) (hdne : d ≠ []) :
    1 ≤ countPre name (u ++ d) suf := by
  induction u with
  | nil =>
    cases d with
    | nil => exact absurd rfl hdne
    | cons c t =>
      show 1 ≤ countPre name (c :: t) suf
      rw [countPre_cons]
      have hd' : (matchDeclHere name (c :: (t ++ suf))).isSome = true := by
        simpa using hd
      rw [hd']
      simp
  | cons a u' ih =>
    show 1 ≤ countPre name (a :: (u' ++ d)) suf
    rw [countPre_cons]
    omega

theorem ddFreeB_single_eq (c : Char) (suf : List Char) :
    ddFreeB [c] suf = (!(c == '-' && suf.take 1 == ['-'])) := rfl

theorem ddFreeB_cons_cons_eq (c c' : Char) (t suf : List Char) :
    ddFreeB (c :: c' :: t) suf =
      (!(c == '-' && c' == '-') && ddFreeB (c' :: t) suf) := rfl

theorem ddFreeB_single_iff {c : Char} {suf : List Char} :
    ddFreeB [c] suf = true ↔ ¬(c = '-' ∧ suf.take 1 = ['-']) := by
  rw [ddFreeB_single_eq]
  simp
  tauto

theorem ddFreeB_cons_cons_iff {c c' : Char} {t suf : List Char} :
    ddFreeB (c :: c' :: t) suf = true ↔
      ¬(c = '-' ∧ c' = '-') ∧ ddFreeB (c' :: t) suf = true := by
  rw [ddFreeB_cons_cons_eq]
  simp
  tauto

theorem ddFreeB_tail {c : Char} {t suf : List Char}
    (h : ddFreeB (c :: t) suf = true) : ddFreeB t suf = true := by
  cases t with
  | nil => rfl
  | cons c' t' => exact (ddFreeB_cons_cons_iff.mp h).2

theorem ddFreeB_of_no_dash {l : List Char} (h : ∀ c ∈ l, c ≠ '-') :
    ∀ suf, ddFreeB l suf = true := by
  induction l with
  | nil =>
    intro suf
    rfl
  | cons c t ih =>
    intro suf
    have hc := h c (List.mem_cons_self c t)
    cases t with
    | nil => exact ddFreeB_single_iff.mpr (fun hcon => hc hcon.1)
    | cons c' t' =>
      exact ddFreeB_cons_cons_iff.mpr ⟨fun hcon => hc hcon.1,
        ih (fun d hd => h d (List.mem_cons_of_mem c hd)) suf⟩

theorem ddFreeB_append_of : ∀ {l r suf : List Char},
    ddFreeB l (r ++ suf) = true → ddFreeB r suf = true →
    ddFreeB (l ++ r) suf = true := by
  intro l
  induction l with
  | nil =>
    intro r suf h1 h2
    simpa using h2
  | cons c t ih =>
    intro r suf h1 h2
    cases t with
    | nil =>
      cases r with
      | nil => simpa using h1
      | cons c' r' =>
        show ddFreeB (c :: c' :: r') suf = true
        have h1' := ddFreeB_single_iff.mp h1
        refine ddFreeB_cons_cons_iff.mpr ⟨?_, h2⟩
        intro hcon
        apply h1'
        refine ⟨hcon.1, ?_⟩
        show ((c' :: r') ++ suf).take 1 = ['-']
        rw [List.cons_append]
        simp [hcon.2]
    | cons c2 t' =>
      show ddFreeB (c :: c2 :: (t' ++ r)) suf = true
      have h1a := (ddFreeB_cons_cons_iff.mp h1).1
      have h1b := (ddFreeB_cons_cons_iff.mp h1).2
      exact ddFreeB_cons_cons_iff.mpr ⟨h1a, ih h1b h2⟩

theorem ddFreeB_change_suf {suf : List Char} (hsuf : suf.take 1 ≠ ['-']) :
    ∀ {l : List Char}, ddFreeB l [] = true → ddFreeB l suf = true := by
  intro l
  induction l with
  | nil =>
    intro _
    rfl
  | cons c t ih =>
    intro h
    cases t with
    | nil => exact ddFreeB_single_iff.mpr (fun hcon => hsuf hcon.2)
    | cons c' t' =>
      have hsplit := ddFreeB_cons_cons_iff.mp h
      exact ddFreeB_cons_cons_iff.mpr ⟨hsplit.1, ih hsplit.2⟩

theorem ddFreeB_of_getLast (suf : List Char) :
    ∀ l, ddFreeB l [] = true → l.getLast? ≠ some '-' → ddFreeB l suf = true := by
  intro l
  induction l with
  | nil =>
    intro _ _
    rfl
  | cons c t ih =>
    intro h hlast
    cases t with
    | nil =>
      have hc : c ≠ '-' := by simpa using hlast
      exact ddFreeB_single_iff.mpr (fun hcon => hc hcon.1)
    | cons c' t' =>
      have hsplit := ddFreeB_cons_cons_iff.mp h
      have hlast' : (c' :: t').getLast? ≠ some '-' := by
        rwa [List.getLast?_cons_cons] at hlast
      exact ddFreeB_cons_cons_iff.mpr ⟨hsplit.1, ih hsplit.2 hlast'⟩

theorem ddFreeB_no_dd_drop (suf : List Char) :
    ∀ l, ddFreeB l suf = true → ∀ j, j < l.length →
      ∀ t, (l ++ suf).drop j ≠ '-' :: '-' :: t := by
  intro l
  induction l with
  | nil =>
    intro _ j hj
    simp at hj
  | cons c t0 ih =>
    intro h j hj t
    cases j with
    | zero =>
      intro hcon
      have hcon' : c :: (t0 ++ suf) = '-' :: '-' :: t := by
        simpa using hcon
      obtain ⟨hc, hrest⟩ : c = '-' ∧ t0 ++ suf = '-' :: t := by
        injection hcon' with h1 h2
        exact ⟨h1, h2⟩
      cases t0 with
      | nil =>
        rw [List.nil_append] at hrest
        exact (ddFreeB_single_iff.mp h) ⟨hc, by rw [hrest]; rfl⟩
      | cons c2 t2 =>
        have hc2 : c2 = '-' := by
          have hx : c2 :: (t2 ++ suf) = '-' :: t := by
            simpa using hrest
          injection hx with h1 _
        exact (ddFreeB_cons_cons_iff.mp h).1 ⟨hc, hc2⟩
    | succ j' =>
      intro hcon
      exact ih (ddFreeB_tail h) j' (by simpa using hj) t (by simpa using hcon)

theorem matchDeclHere_isSome_start (name x : List Char)
    (h : (matchDeclHere name x).isSome = true) :
    ∃ t, x = '-' :: '-' :: t := by
  unfold matchDeclHere at h
  split at h
  case isFalse => simp at h
  rename_i htake
  refine ⟨name ++ x.drop ('-' :: '-' :: name).length, ?_⟩
  conv_lhs => rw [← List.take_append_drop ('-' :: '-' :: name).length x]
  rw [htake]
  rfl

theorem countPre_eq_zero_of_ddFreeB (name : List Char) :
    ∀ seg suf, ddFreeB seg suf = true → countPre name seg suf = 0 := by
  intro seg
  induction seg with
  | nil =>
    intro suf _
    rfl
  | cons c t ih =>
    intro suf h
    rw [countPre_cons, ih suf (ddFreeB_tail h)]
    have hnone : (matchDeclHere name (c :: (t ++ suf))).isSome = false := by
      cases hs : (matchDeclHere name (c :: (t ++ suf))).isSome with
      | false => rfl
      | true =>
        obtain ⟨t', ht'⟩ := matchDeclHere_isSome_start name _ hs
        have hdrop : ((c :: t) ++ suf).drop 0 = '-' :: '-' :: t' := by
          simpa using ht'
        exact absurd hdrop (ddFreeB_no_dd_drop suf (c :: t) h 0 (by simp) t')
    simp [hnone]

theorem dropWhile_head_false {p : Char → Bool} :
    ∀ {l : List Char} {d : Char} {t : List Char},
      l.dropWhile p = d :: t → p d = false := by
  intro l
  induction l with
  | nil =>
    intro d t h
    simp at h
  | cons c l' ih =>
    intro d t h
    by_cases hc : p c = true
    · rw [List.dropWhile_cons_of_pos hc] at h
      exact ih h
    · rw [List.dropWhile_cons_of_neg hc] at h
      obtain ⟨h1, -⟩ : c = d ∧ l' = t := by
        injection h with h1 h2
        exact ⟨h1, h2⟩
      rw [← h1]
      exact Bool.not_eq_true _ ▸ hc

theorem parseDeclRest_colon (aw W : List Char)
    (haw : ∀ c ∈ aw, pyIsSpace c = true) :
    parseDeclRest (aw ++ ':' :: W) =
      (if (W.takeWhile notSemi).isEmpty then none
       else
         match W.drop (W.takeWhile notSemi).length with
         | ';' :: _ =>
           some (aw ++ ':' ::
               (W.takeWhile notSemi).take
                 (min ((W.takeWhile notSemi).takeWhile pyIsSpace).length
                   ((W.takeWhile notSemi).length - 1)),
             (W.takeWhile notSemi).drop
               (min ((W.takeWhile notSemi).takeWhile pyIsSpace).length
                 ((W.takeWhile notSemi).length - 1)))
         | _ => none) := by
  have htw : (aw ++ ':' :: W).takeWhile pyIsSpace = aw := by
    rw [(takeWhile_append_of_all _ _ haw).1,
      List.takeWhile_cons_of_neg (by decide)]
    simp
  have hdw : (aw ++ ':' :: W).dropWhile pyIsSpace = ':' :: W := by
    rw [(takeWhile_append_of_all _ _ haw).2,
      List.dropWhile_cons_of_neg (by decide)]
  unfold parseDeclRest
  rw [htw, hdw]
  rfl

theorem pat_no_self_overlap (name : List Char) (hne : name ≠ [])
    (hdd : ddFreeB name [] = true)
    (hhead : name.head? ≠ some '-') (hlast : name.getLast? ≠ some '-')
    (j : Nat) (hj1 : 1 ≤ j) (hj2 : j < ('-' :: '-' :: name).length) :
    ('-' :: '-' :: name).drop j ≠
      ('-' :: '-' :: name).take (('-' :: '-' :: name).length - j) := by
  intro heq
  set pat := '-' :: '-' :: name with hpat
  have hlenpat : pat.length = name.length + 2 := by simp [hpat]
  set k := pat.length - j with hk
  have hk1 : 1 ≤ k := by omega
  have hkP : k ≤ name.length + 1 := by omega
  rcases Nat.lt_or_ge k 2 with hk2 | hk2
  · have hkeq : k = 1 := by omega
    have htake1 : pat.take k = ['-'] := by
      rw [hkeq, hpat]
      rfl
    have hsplit : pat = pat.take j ++ ['-'] := by
      conv_lhs => rw [← List.take_append_drop j pat]
      rw [heq, htake1]
    have hlastpat : pat.getLast? = some '-' := by
      rw [hsplit]
      exact List.getLast?_concat _
    obtain ⟨nm, cl, hnmcl⟩ := (List.eq_nil_or_concat name).resolve_left hne
    rw [List.concat_eq_append] at hnmcl
    have hplast : pat.getLast? = some cl := by
      rw [hpat, hnmcl, show ('-' :: '-' :: (nm ++ [cl])) =
        ('-' :: '-' :: nm) ++ [cl] by simp]
      exact List.getLast?_concat _
    have hcl : cl = '-' := by
      rw [hplast] at hlastpat
      injection hlastpat
    apply hlast
    rw [hnmcl, List.getLast?_concat, hcl]
  · have htakek : pat.take k = '-' :: '-' :: name.take (k - 2) := by
      obtain ⟨k2, hk2eq⟩ : ∃ k2, k = k2 + 2 := ⟨k - 2, by omega⟩
      rw [hpat, hk2eq]
      simp [List.take_succ_cons]
    rcases Nat.lt_or_ge j 2 with hjlt | hjge
    · have hjeq : j = 1 := by omega
      have hdropj : pat.drop j = '-' :: name := by
        rw [hjeq, hpat]
        rfl
      rw [hdropj, htakek] at heq
      have hn : name = '-' :: name.take (k - 2) := by
        injection heq
      apply hhead
      rw [hn]
      rfl
    · have hdropj : pat.drop j = name.drop (j - 2) := by
        obtain ⟨j2, hj2eq⟩ : ∃ j2, j = j2 + 2 := ⟨j - 2, by omega⟩
        rw [hpat, hj2eq]
        simp [List.drop_succ_cons]
      rw [hdropj, htakek] at heq
      have hjlen : j - 2 < name.length := by omega
      apply ddFreeB_no_dd_drop [] name hdd (j - 2) hjlen (name.take (k - 2))
      rw [List.append_nil]
      exact heq

theorem parseDeclRest_none_preserve (a inner inner2 rest : List Char)
    (hhead : inner.head? = some '-') (hhead2 : inner2.head? = some '-')
    (hsemi : ∀ c ∈ inner, c ≠ ';') (hsemi2 : ∀ c ∈ inner2, c ≠ ';')
    (h : parseDeclRest (a ++ (inner ++ ';' :: rest)) = none) :
    parseDeclRest (a ++ (inner2 ++ ';' :: rest)) = none := by
  obtain ⟨ci, ti, rfl⟩ : ∃ ci ti, inner = ci :: ti := by
    cases inner with
    | nil => simp at hhead
    | cons ci ti => exact ⟨ci, ti, rfl⟩
  have hci : ci = '-' := by
    simpa using hhead
  obtain ⟨cj, tj, rfl⟩ : ∃ cj tj, inner2 = cj :: tj := by
    cases inner2 with
    | nil => simp at hhead2
    | cons cj tj => exact ⟨cj, tj, rfl⟩
  have hcj : cj = '-' := by
    simpa using hhead2
  cases had : a.dropWhile pyIsSpace with
  | nil =>
    have ha : ∀ c ∈ a, pyIsSpace c = true := List.dropWhile_eq_nil_iff.mp had
    unfold parseDeclRest
    rw [(takeWhile_append_of_all a _ ha).2, List.cons_append,
      List.dropWhile_cons_of_neg (by rw [hcj]; decide)]
    split
    · rename_i r2 heq
      have h1 : cj = ':' := by
        injection heq
      rw [hcj] at h1
      exact absurd h1 (by decide)
    · rfl
  | cons d ad' =>
    have hdfalse : pyIsSpace d = false := dropWhile_head_false had
    have ha_split : a = a.takeWhile pyIsSpace ++ d :: ad' := by
      conv_lhs => rw [← List.takeWhile_append_dropWhile pyIsSpace a]
      rw [had]
    have haw : ∀ c ∈ a.takeWhile pyIsSpace, pyIsSpace c = true := fun c hc =>
      List.mem_takeWhile_imp hc
    have hshape : ∀ X : List Char,
        a ++ X = a.takeWhile pyIsSpace ++ (d :: (ad' ++ X)) := by
      intro X
      conv_lhs => rw [ha_split]
      simp
    by_cases hdc : d = ':'
    case neg =>
      have hnone : ∀ X : List Char, parseDeclRest (a ++ X) = none := by
        intro X
        rw [hshape X]
        unfold parseDeclRest
        rw [(takeWhile_append_of_all _ _ haw).2,
          List.dropWhile_cons_of_neg (by simp [hdfalse])]
        split
        · rename_i r2 heq
          have h1 : d = ':' := by
            injection heq
          exact absurd h1 hdc
        · rfl
      exact hnone _
    case pos =>
      subst hdc
      by_cases hmem : ';' ∈ ad'
      · obtain ⟨b2, hdrop'⟩ : ∃ b2, ad'.dropWhile notSemi = ';' :: b2 := by
          cases hdw2 : ad'.dropWhile notSemi with
          | nil =>
            exfalso
            have hall : ∀ c ∈ ad', notSemi c = true :=
              List.dropWhile_eq_nil_iff.mp hdw2
            have := hall ';' hmem
            simp [notSemi] at this
          | cons s b2 =>
            have hs : notSemi s = false := dropWhile_head_false hdw2
            have hs' : s = ';' := by
              by_contra hcon
              simp [notSemi, hcon] at hs
            exact ⟨b2, by rw [hs']⟩
        have hb : ad' = ad'.takeWhile notSemi ++ (';' :: b2) := by
          conv_lhs => rw [← List.takeWhile_append_dropWhile notSemi ad']
          rw [hdrop']
        have hb1sem : ∀ c ∈ ad'.takeWhile notSemi, notSemi c = true := fun c hc =>
          List.mem_takeWhile_imp hc
        have htwX : ∀ X : List Char,
            (ad' ++ X).takeWhile notSemi = ad'.takeWhile notSemi := by
          intro X
          conv_lhs => rw [hb]
          rw [List.append_assoc, (takeWhile_append_of_all _ _ hb1sem).1,
            List.cons_append, List.takeWhile_cons_of_neg (by simp [notSemi])]
          simp
        have hdropX : ∀ X : List Char,
            (ad' ++ X).drop (ad'.takeWhile notSemi).length = ';' :: (b2 ++ X) := by
          intro X
          have hsh : ad' ++ X = ad'.takeWhile notSemi ++ (';' :: (b2 ++ X)) := by
            conv_lhs => rw [hb]
            simp
          rw [hsh, List.drop_left]
        rw [hshape, parseDeclRest_colon _ _ haw, htwX, hdropX] at h
        rw [hshape, parseDeclRest_colon _ _ haw, htwX, hdropX]
        cases hb1e : (ad'.takeWhile notSemi).isEmpty with
        | true =>
          rw [if_pos rfl]
        | false =>
          rw [if_neg (by simp [hb1e])] at h
          exact absurd h (by simp)
      · have had'sem : ∀ c ∈ ad', notSemi c = true := by
          intro c hc
          have : c ≠ ';' := by
            rintro rfl
            exact hmem hc
          simp [notSemi, this]
        have hsem_all : ∀ c ∈ ad' ++ ci :: ti, notSemi c = true := by
          intro c hc
          rcases List.mem_append.mp hc with hc1 | hc1
          · exact had'sem c hc1
          · have := hsemi c hc1
            simp [notSemi, this]
        have htw2 : (ad' ++ ((ci :: ti) ++ ';' :: rest)).takeWhile notSemi =
            ad' ++ ci :: ti := by
          rw [← List.append_assoc, (takeWhile_append_of_all _ _ hsem_all).1,
            List.takeWhile_cons_of_neg (by simp [notSemi])]
          simp
        have hdrop2 : (ad' ++ ((ci :: ti) ++ ';' :: rest)).drop
            (ad' ++ ci :: ti).length = ';' :: rest := by
          rw [← List.append_assoc, List.drop_left]
        rw [hshape, parseDeclRest_colon _ _ haw, htw2, hdrop2] at h
        rw [if_neg (by simp)] at h
        exact absurd h (by simp)

theorem declText_inner_shape (name ws1 tk b rest : List Char) :
    declText name ws1 tk b ++ rest =
      ('-' :: '-' :: (name ++ ws1 ++ ':' :: (tk ++ b))) ++ ';' :: rest := by
  simp [declText]

theorem inner_semi_free (name ws1 tk b : List Char)
    (hchars : ∀ c ∈ name, c ≠ ':' ∧ c ≠ ';' ∧ pyIsSpace c = false)
    (hws1 : ∀ c ∈ ws1, pyIsSpace c = true) (htk : ∀ c ∈ tk, pyIsSpace c = true)
    (hb : ∀ c ∈ b, c ≠ ';') :
    ∀ c ∈ ('-' :: '-' :: (name ++ ws1 ++ ':' :: (tk ++ b))), c ≠ ';' := by
  intro c hc
  simp only [List.mem_cons, List.mem_append] at hc
  rcases hc with rfl | rfl | (hc | hc) | rfl | (hc | hc)
  · decide
  · decide
  · exact (hchars c hc).2.1
  · exact pyIsSpace_ne_semi (hws1 c hc)
  · decide
  · exact pyIsSpace_ne_semi (htk c hc)
  · exact hb c hc

theorem matchDeclHere_none_preserve (name x ws1 tk body value rest : List Char)
    (hgood : goodVarName name)
    (hws1 : ∀ c ∈ ws1, pyIsSpace c = true) (htk : ∀ c ∈ tk, pyIsSpace c = true)
    (hbody : ∀ c ∈ body, c ≠ ';') (hvalue : ∀ c ∈ value, c ≠ ';')
    (hxne : x ≠ [])
    (h : matchDeclHere name (x ++ (declText name ws1 tk body ++ rest)) = none) :
    matchDeclHere name (x ++ (declText name ws1 tk value ++ rest)) = none := by
  obtain ⟨hne, hchars, hdd, hhead, hlast⟩ := hgood
  have htake_small : ∀ (b : List Char) m, m ≤ ('-' :: '-' :: name).length →
      (declText name ws1 tk b ++ rest).take m = ('-' :: '-' :: name).take m := by
    intro b m hm
    have hsh : declText name ws1 tk b ++ rest =
        ('-' :: '-' :: name) ++ (ws1 ++ ':' :: (tk ++ b ++ [';']) ++ rest) := by
      simp [declText]
    rw [hsh, List.take_append_of_le_length hm]
  have htake_eq : (x ++ (declText name ws1 tk body ++ rest)).take
        ('-' :: '-' :: name).length =
      (x ++ (declText name ws1 tk value ++ rest)).take
        ('-' :: '-' :: name).length := by
    by_cases hx : ('-' :: '-' :: name).length ≤ x.length
    · rw [List.take_append_of_le_length hx, List.take_append_of_le_length hx]
    · conv_lhs => rw [List.take_append_eq_append_take]
      conv_rhs => rw [List.take_append_eq_append_take]
      rw [htake_small body _ (by omega), htake_small value _ (by omega)]
  unfold matchDeclHere at h ⊢
  by_cases hcond : (x ++ (declText name ws1 tk body ++ rest)).take
      ('-' :: '-' :: name).length = '-' :: '-' :: name
  case neg =>
    have hcond2 : ¬((x ++ (declText name ws1 tk value ++ rest)).take
        ('-' :: '-' :: name).length = '-' :: '-' :: name) := by
      rw [← htake_eq]
      exact hcond
    rw [if_neg hcond2]
  case pos =>
    rw [if_pos hcond] at h
    have hcond2 : (x ++ (declText name ws1 tk value ++ rest)).take
        ('-' :: '-' :: name).length = '-' :: '-' :: name := by
      rw [← htake_eq]
      exact hcond
    rw [if_pos hcond2]
    rcases Nat.lt_or_ge x.length ('-' :: '-' :: name).length with hxl | hxg
    · exfalso
      have hxfull : x.take ('-' :: '-' :: name).length = x :=
        List.take_of_length_le (le_of_lt hxl)
      have hAtake : (declText name ws1 tk body ++ rest).take
          (('-' :: '-' :: name).length - x.length) =
          ('-' :: '-' :: name).take (('-' :: '-' :: name).length - x.length) :=
        htake_small body _ (by omega)
      have hsplit : '-' :: '-' :: name =
          x ++ ('-' :: '-' :: name).take (('-' :: '-' :: name).length - x.length) := by
        have e1 : (x ++ (declText name ws1 tk body ++ rest)).take
            ('-' :: '-' :: name).length =
            x.take ('-' :: '-' :: name).length ++ (declText name ws1 tk body ++
              rest).take (('-' :: '-' :: name).length - x.length) :=
          List.take_append_eq_append_take
        rw [hxfull, hAtake] at e1
        exact hcond.symm.trans e1
      have hdropx : ('-' :: '-' :: name).drop x.length =
          ('-' :: '-' :: name).take (('-' :: '-' :: name).length - x.length) := by
        conv_lhs => rw [hsplit]
        rw [List.drop_left]
      have hx1 : 1 ≤ x.length := by
        have := List.length_pos.mpr hxne
        omega
      exact pat_no_self_overlap name hne hdd hhead hlast x.length hx1 hxl hdropx
    · have hdrop_eq : ∀ b : List Char,
          (x ++ (declText name ws1 tk b ++ rest)).drop ('-' :: '-' :: name).length =
            x.drop ('-' :: '-' :: name).length ++ (declText name ws1 tk b ++ rest) :=
        fun b => List.drop_append_of_le_length hxg
      rw [hdrop_eq body] at h
      rw [hdrop_eq value]
      rw [Option.map_eq_none'] at h ⊢
      rw [declText_inner_shape] at h
      rw [declText_inner_shape]
      exact parseDeclRest_none_preserve (x.drop ('-' :: '-' :: name).length)
        ('-' :: '-' :: (name ++ ws1 ++ ':' :: (tk ++ body)))
        ('-' :: '-' :: (name ++ ws1 ++ ':' :: (tk ++ value))) rest rfl rfl
        (inner_semi_free name ws1 tk body hchars hws1 htk hbody)
        (inner_semi_free name ws1 tk value hchars hws1 htk hvalue) h

theorem ddFreeB_declTail (name ws1 tk v suf : List Char)
    (hgood : goodVarName name)
    (hws1 : ∀ c ∈ ws1, pyIsSpace c = true) (htk : ∀ c ∈ tk, pyIsSpace c = true)
    (hv : goodVarValue v) :
    ddFreeB ('-' :: (name ++ ws1 ++ ':' :: (tk ++ v ++ [';']))) suf = true := by
  obtain ⟨hne, hchars, hdd, hhead, hlast⟩ := hgood
  obtain ⟨hvne, hvsemi, hvdd⟩ := hv
  have hsemi_dd : ddFreeB [';'] suf = true := by
    apply ddFreeB_of_no_dash
    intro c hc
    simp at hc
    subst hc
    decide
  have hv_dd : ddFreeB v ([';'] ++ suf) = true := by
    apply ddFreeB_change_suf ?_ hvdd
    simp
  have hvsemi_dd : ddFreeB (v ++ [';']) suf = true := ddFreeB_append_of hv_dd hsemi_dd
  have htk_dd : ddFreeB tk ((v ++ [';']) ++ suf) = true :=
    ddFreeB_of_no_dash (fun c hc => pyIsSpace_ne_dash (htk c hc)) _
  have htkv : ddFreeB (tk ++ (v ++ [';'])) suf = true :=
    ddFreeB_append_of htk_dd hvsemi_dd
  have hcolon : ddFreeB [':'] ((tk ++ (v ++ [';'])) ++ suf) = true := by
    apply ddFreeB_of_no_dash
    intro c hc
    simp at hc
    subst hc
    decide
  have hcolontkv : ddFreeB (':' :: (tk ++ (v ++ [';']))) suf = true := by
    have := ddFreeB_append_of hcolon htkv
    simpa using this
  have hws1_dd : ddFreeB ws1 ((':' :: (tk ++ (v ++ [';']))) ++ suf) = true :=
    ddFreeB_of_no_dash (fun c hc => pyIsSpace_ne_dash (hws1 c hc)) _
  have hws1rest : ddFreeB (ws1 ++ ':' :: (tk ++ (v ++ [';']))) suf = true :=
    ddFreeB_append_of hws1_dd hcolontkv
  have hname_dd : ddFreeB name
      ((ws1 ++ ':' :: (tk ++ (v ++ [';']))) ++ suf) = true :=
    ddFreeB_of_getLast _ name hdd hlast
  have hnamerest : ddFreeB (name ++ (ws1 ++ ':' :: (tk ++ (v ++ [';'])))) suf = true :=
    ddFreeB_append_of hname_dd hws1rest
  have hdash : ddFreeB ['-']
      ((name ++ (ws1 ++ ':' :: (tk ++ (v ++ [';'])))) ++ suf) = true := by
    apply ddFreeB_single_iff.mpr
    rintro ⟨-, htake⟩
    obtain ⟨cn, tn, rfl⟩ : ∃ cn tn, name = cn :: tn := by
      cases name with
      | nil => exact absurd rfl hne
      | cons cn tn => exact ⟨cn, tn, rfl⟩
    have hcn : cn ≠ '-' := by
      simpa using hhead
    simp at htake
    exact hcn htake
  have hfinal := ddFreeB_append_of hdash hnamerest
  simpa [List.append_assoc] using hfinal

theorem countPre_eq_zero_of_nones (name : List Char) :
    ∀ pre X, (∀ j, j < pre.length → matchDeclHere name (pre.drop j ++ X) = none) →
    countPre name pre X = 0 := by
  intro pre
  induction pre with
  | nil =>
    intro X _
    rfl
  | cons c t ih =>
    intro X h
    rw [countPre_cons]
    have h0' : matchDeclHere name (c :: (t ++ X)) = none := by
      simpa using h 0 (by simp)
    rw [h0']
    simp only [Option.isSome_none, Bool.false_eq_true, if_false, Nat.zero_add]
    exact ih X (fun j hj => by simpa using h (j + 1) (by simpa using hj))

theorem countPre_declText (name ws1 tk v rest : List Char)
    (hgood : goodVarName name)
    (hws1 : ∀ c ∈ ws1, pyIsSpace c = true) (htk : ∀ c ∈ tk, pyIsSpace c = true)
    (hv : goodVarValue v) :
    countPre name (declText name ws1 tk v) rest = 1 := by
  have hmid : ∀ c ∈ tk ++ v, c ≠ ';' := by
    intro c hc
    rcases List.mem_append.mp hc with hc | hc
    · exact pyIsSpace_ne_semi (htk c hc)
    · exact hv.2.1 c hc
  have hm : (matchDeclHere name (declText name ws1 tk v ++ rest)).isSome = true := by
    rw [matchDeclHere_construct name ws1 tk v rest hws1 hmid (by simp [hv.1])]
    rfl
  have h1 : countPre name (declText name ws1 tk v) rest =
      (if (matchDeclHere name (declText name ws1 tk v ++ rest)).isSome then 1 else 0) +
        countPre name ('-' :: (name ++ ws1 ++ ':' :: (tk ++ v ++ [';']))) rest := rfl
  rw [h1, hm, countPre_eq_zero_of_ddFreeB name _ rest
    (ddFreeB_declTail name ws1 tk v rest hgood hws1 htk hv)]
  simp

theorem patch_once (name value css : List Char) (hgood : goodVarName name)
    (hval : goodVarValue value) (hcount : countDecls name css = 1) :
    ∃ pre ws1 tk rest,
      (∀ c ∈ ws1, pyIsSpace c = true) ∧ (∀ c ∈ tk, pyIsSpace c = true) ∧
      set_css_var_in_style name value css =
        pre ++ declText name ws1 tk value ++ rest ∧
      countDecls name (pre ++ declText name ws1 tk value ++ rest) = 1 := by
  obtain ⟨out, hout⟩ : ∃ out, subDeclFirst name value css = some out := by
    cases hs : subDeclFirst name value css with
    | none =>
      rw [subDeclFirst_eq_none_iff] at hs
      omega
    | some out => exact ⟨out, rfl⟩
  obtain ⟨pre, ws1, tk, body, rest, hcss, houteq, hws1, htk, hbne, hbsemi, hnone⟩ :=
    subDeclFirst_some_inv name value css out hout
  refine ⟨pre, ws1, tk, rest, hws1, htk, ?_, ?_⟩
  · unfold set_css_var_in_style
    rw [hout]
    exact houteq
  · have hnone2 : ∀ j, j < pre.length →
        matchDeclHere name (pre.drop j ++ (declText name ws1 tk value ++ rest)) =
          none := by
      intro j hj
      have hx : pre.drop j ≠ [] := by
        intro hcon
        have := congrArg List.length hcon
        simp [List.length_drop] at this
        omega
      apply matchDeclHere_none_preserve name (pre.drop j) ws1 tk body value rest
        hgood hws1 htk hbsemi hval.2.1 hx
      have hn := hnone j hj
      rw [List.append_assoc] at hn
      exact hn
    have hc_pre : countPre name pre (declText name ws1 tk value ++ rest) = 0 :=
      countPre_eq_zero_of_nones name pre _ hnone2
    have hc_decl : countPre name (declText name ws1 tk value) rest = 1 :=
      countPre_declText name ws1 tk value rest hgood hws1 htk hval
    have hc_rest : countDecls name rest = 0 := by
      have hmid : ∀ c ∈ tk ++ body, c ≠ ';' := by
        intro c hc
        rcases List.mem_append.mp hc with hc | hc
        · exact pyIsSpace_ne_semi (htk c hc)
        · exact hbsemi c hc
      have hm : (matchDeclHere name (declText name ws1 tk body ++ rest)).isSome =
          true := by
        rw [matchDeclHere_construct name ws1 tk body rest hws1 hmid
          (by simp [hbne])]
        rfl
      have hge : 1 ≤ countPre name (declText name ws1 tk body) rest := by
        have := countPre_ge_one name [] (declText name ws1 tk body) rest hm
          (by simp [declText])
        simpa using this
      rw [hcss, List.append_assoc,
        countDecls_append name pre (declText name ws1 tk body ++ rest),
        countDecls_append name (declText name ws1 tk body) rest] at hcount
      omega
    rw [List.append_assoc, countDecls_append name pre
        (declText name ws1 tk value ++ rest),
      countDecls_append name (declText name ws1 tk value) rest,
      hc_pre, hc_decl, hc_rest]

theorem matchDeclHere_isSome_take (name x : List Char)
    (h : (matchDeclHere name x).isSome = true) :
    x.take ('-' :: '-' :: name).length = '-' :: '-' :: name := by
  unfold matchDeclHere at h
  split at h
  case isTrue htake => exact htake
  case isFalse => simp at h

theorem noDeclOccB_cons_eq (name : List Char) (c : Char) (t : List Char) :
    noDeclOccB name (c :: t) =
      (!((c :: t).take ('-' :: '-' :: name).length == '-' :: '-' :: name) &&
        noDeclOccB name t) := rfl

theorem noDeclOccB_all (name : List Char) :
    ∀ l, noDeclOccB name l = true →
      ∀ j, (l.drop j).take ('-' :: '-' :: name).length ≠ '-' :: '-' :: name := by
  intro l
  induction l with
  | nil =>
    intro _ j
    simp
  | cons c t ih =>
    intro h j
    rcases bool_and_true.mp ((noDeclOccB_cons_eq name c t) ▸ h) with ⟨h1, h2⟩
    cases j with
    | zero =>
      intro hcon
      simp only [List.drop_zero] at hcon
      have hl : ('-' :: '-' :: name).length = name.length + 1 + 1 := by simp
      rw [hl, List.take_succ_cons] at hcon
      injection hcon with hc hrest
      simp at h1
      rcases h1 with h1 | h1
      · exact h1 hc
      · exact h1 hrest
    | succ j =>
      exact ih h2 j

theorem countDecls_eq_zero_of_noOcc (name : List Char) :
    ∀ l, noDeclOccB name l = true → countDecls name l = 0 := by
  intro l
  induction l with
  | nil => intro _; rfl
  | cons c t ih =>
    intro h
    rcases bool_and_true.mp ((noDeclOccB_cons_eq name c t) ▸ h) with ⟨h1, h2⟩
    rw [countDecls_cons]
    have hnone : matchDeclHere name (c :: t) = none := by
      unfold matchDeclHere
      rw [if_neg]
      intro hcon
      have hl : ('-' :: '-' :: name).length = name.length + 1 + 1 := by simp
      rw [hl, List.take_succ_cons] at hcon
      injection hcon with hc hrest
      simp at h1
      rcases h1 with h1 | h1
      · exact h1 hc
      · exact h1 hrest
    rw [hnone]
    simp [ih h2]

theorem noDeclOccB_append_right (name : List Char) :
    ∀ x l, noDeclOccB name (x ++ l) = true → noDeclOccB name l = true := by
  intro x
  induction x with
  | nil =>
    intro l h
    simpa using h
  | cons c t ih =>
    intro l h
    have h' : noDeclOccB name (c :: (t ++ l)) = true := by
      simpa using h
    exact ih l (bool_and_true.mp ((noDeclOccB_cons_eq name c (t ++ l)) ▸ h')).2

theorem matchRootHere_some_inv (css g1 : List Char)
    (h : matchRootHere css = some g1) :
    ∃ wsR tail, (∀ c ∈ wsR, pyIsSpace c = true) ∧
      g1 = ':' :: 'r' :: 'o' :: 'o' :: 't' :: (wsR ++ ['\x7b']) ∧
      css = g1 ++ tail := by
  unfold matchRootHere at h
  split at h
  case isFalse => simp at h
  rename_i htake5
  split at h
  case h_2 => simp at h
  rename_i t' hdw
  injection h with hg
  refine ⟨(css.drop 5).takeWhile pyIsSpace, t',
    fun c hc => List.mem_takeWhile_imp hc, hg.symm, ?_⟩
  conv_lhs => rw [← List.take_append_drop 5 css]
  rw [htake5,
    ← List.takeWhile_append_dropWhile (p := pyIsSpace) (l := css.drop 5), hdw,
    ← hg]
  simp

theorem subRootFirst_some_inv (name value : List Char) :
    ∀ css out, subRootFirst name value css = some out →
    ∃ pre g1 suf, css = pre ++ (g1 ++ suf) ∧
      matchRootHere (g1 ++ suf) = some g1 ∧
      out = pre ++ (g1 ++ (rootInsertion name value ++ suf)) := by
  intro css
  induction css with
  | nil =>
    intro out h
    simp [subRootFirst] at h
  | cons c rest ih =>
    intro out h
    have he : subRootFirst name value (c :: rest) =
        (match matchRootHere (c :: rest) with
         | some g1 =>
           some (g1 ++ rootInsertion name value ++ (c :: rest).drop g1.length)
         | none => (subRootFirst name value rest).map (c :: ·)) := rfl
    rw [he] at h
    cases hm : matchRootHere (c :: rest) with
    | some g1 =>
      rw [hm] at h
      injection h with hout
      obtain ⟨wsR, tail, hws, hg1, hcr⟩ := matchRootHere_some_inv (c :: rest) g1 hm
      refine ⟨[], g1, tail, by simpa using hcr, ?_, ?_⟩
      · rw [← hcr]
        exact hm
      · rw [← hout, hcr, List.drop_left]
        simp [List.append_assoc]
    | none =>
      rw [hm] at h
      rcases Option.map_eq_some'.mp h with ⟨o, ho, hco⟩
      obtain ⟨pre, g1, suf, hcss, hmr, hoeq⟩ := ih o ho
      exact ⟨c :: pre, g1, suf, by simp [hcss], hmr, by rw [← hco, hoeq]; rfl⟩

theorem rootInsertion_eq (name value : List Char) :
    rootInsertion name value =
      ('\n' :: ' ' :: ' ' :: ' ' :: ' ' :: ' ' :: ' ' :: ' ' :: ' ' :: []) ++
        declText name [] [] value := by
  simp [rootInsertion, declText]

theorem match_none_in_prefix_block (name pre Btail Y D : List Char)
    (hgood : goodVarName name)
    (hB : ∀ c ∈ ':' :: Btail, c ≠ '-')
    (hnocc : noDeclOccB name (pre ++ Y) = true) :
    ∀ j, j < (pre ++ ':' :: Btail).length →
      matchDeclHere name ((pre ++ ':' :: Btail).drop j ++ D) = none := by
  intro j hj
  by_contra hcon
  have hsome := Option.ne_none_iff_isSome.mp hcon
  have htake := matchDeclHere_isSome_take _ _ hsome
  rcases lt_or_ge j pre.length with hjp | hjp
  · have hdropA : (pre ++ ':' :: Btail).drop j = pre.drop j ++ ':' :: Btail :=
      List.drop_append_of_le_length (le_of_lt hjp)
    rcases le_or_lt ('-' :: '-' :: name).length (pre.length - j) with hfit | hover
    · have hlen : ('-' :: '-' :: name).length ≤ (pre.drop j).length := by
        rw [List.length_drop]
        omega
      have hnew : ((pre ++ ':' :: Btail).drop j ++ D).take
            ('-' :: '-' :: name).length =
          (pre.drop j).take ('-' :: '-' :: name).length := by
        rw [hdropA, List.append_assoc, List.take_append_of_le_length hlen]
      have hold : ((pre ++ Y).drop j).take ('-' :: '-' :: name).length =
          (pre.drop j).take ('-' :: '-' :: name).length := by
        rw [List.drop_append_of_le_length (le_of_lt hjp),
          List.take_append_of_le_length hlen]
      exact noDeclOccB_all name (pre ++ Y) hnocc j (by rw [hold, ← hnew, htake])
    · have hlen2 : (pre.drop j).length < ('-' :: '-' :: name).length := by
        rw [List.length_drop]
        omega
      have hsplit : ((pre ++ ':' :: Btail).drop j ++ D).take
            ('-' :: '-' :: name).length =
          pre.drop j ++ (':' :: (Btail ++ D)).take
            (('-' :: '-' :: name).length - (pre.drop j).length) := by
        rw [hdropA, List.append_assoc, List.take_append_eq_append_take,
          List.take_of_length_le (le_of_lt hlen2)]
        rfl
      have hm1 : 1 ≤ ('-' :: '-' :: name).length - (pre.drop j).length := by
        omega
      have hcolon : (':' :: (Btail ++ D)).take
            (('-' :: '-' :: name).length - (pre.drop j).length) =
          ':' :: (Btail ++ D).take
            (('-' :: '-' :: name).length - (pre.drop j).length - 1) := by
        cases hn : ('-' :: '-' :: name).length - (pre.drop j).length with
        | zero => omega
        | succ k => simp
      have hmem : ':' ∈ '-' :: '-' :: name := by
        rw [← htake, hsplit, hcolon]
        exact List.mem_append_right _ (List.mem_cons_self _ _)
      rcases List.mem_cons.mp hmem with h1 | hmem2
      · exact absurd h1 (by decide)
      · rcases List.mem_cons.mp hmem2 with h1 | h3
        · exact absurd h1 (by decide)
        · exact (hgood.2.1 ':' h3).1 rfl
  · have hk : j - pre.length < (':' :: Btail).length := by
      rw [List.length_append] at hj
      omega
    have hdropA : (pre ++ ':' :: Btail).drop j =
        (':' :: Btail).drop (j - pre.length) := by
      rw [List.drop_append_eq_append_drop, List.drop_eq_nil_of_le hjp,
        List.nil_append]
    obtain ⟨c0, t0, hct⟩ :
        ∃ c0 t0, (':' :: Btail).drop (j - pre.length) = c0 :: t0 := by
      cases hcc : (':' :: Btail).drop (j - pre.length) with
      | nil =>
        have hlen0 := congrArg List.length hcc
        rw [List.length_drop] at hlen0
        simp only [List.length_nil] at hlen0
        omega
      | cons a b => exact ⟨a, b, rfl⟩
    have hc0mem : c0 ∈ ':' :: Btail :=
      List.mem_of_mem_drop (hct ▸ List.mem_cons_self c0 t0)
    rw [hdropA, hct, List.cons_append] at htake
    have hl : ('-' :: '-' :: name).length = name.length + 1 + 1 := by simp
    rw [hl, List.take_succ_cons] at htake
    injection htake with hc0 _
    exact hB c0 hc0mem hc0

theorem insert_count_one (name value css out : List Char)
    (hgood : goodVarName name) (hval : goodVarValue value)
    (hnocc : noDeclOccB name css = true)
    (hout : subRootFirst name value css = some out) :
    countDecls name out = 1 := by
  obtain ⟨pre, g1, suf, hcss, hmr, hoeq⟩ :=
    subRootFirst_some_inv name value css out hout
  obtain ⟨wsR, tail, hws, hg1, -⟩ := matchRootHere_some_inv (g1 ++ suf) g1 hmr
  have hnocc' : noDeclOccB name (pre ++ (g1 ++ suf)) = true := hcss ▸ hnocc
  have hout_shape : out =
      (pre ++ ':' :: ('r' :: 'o' :: 'o' :: 't' :: (wsR ++ '\x7b' :: '\n' ::
        ' ' :: ' ' :: ' ' :: ' ' :: ' ' :: ' ' :: ' ' :: ' ' :: []))) ++
      (declText name [] [] value ++ suf) := by
    simp [hoeq, hg1, rootInsertion_eq, List.append_assoc]
  have hB : ∀ c ∈ ':' :: ('r' :: 'o' :: 'o' :: 't' :: (wsR ++ '\x7b' :: '\n' ::
      ' ' :: ' ' :: ' ' :: ' ' :: ' ' :: ' ' :: ' ' :: ' ' :: [])), c ≠ '-' := by
    intro c hc
    have hc' : c ∈ ([':', 'r', 'o', 'o', 't'] : List Char) ++
        (wsR ++ '\x7b' :: '\n' ::
          ' ' :: ' ' :: ' ' :: ' ' :: ' ' :: ' ' :: ' ' :: ' ' :: []) := by
      simpa using hc
    rcases List.mem_append.mp hc' with h5 | hrest
    · intro hceq
      subst hceq
      revert h5
      decide
    rcases List.mem_append.mp hrest with hw | htail2
    · exact pyIsSpace_ne_dash (hws c hw)
    · intro hceq
      subst hceq
      revert htail2
      decide
  have hnones := match_none_in_prefix_block name pre
    ('r' :: 'o' :: 'o' :: 't' :: (wsR ++ '\x7b' :: '\n' ::
      ' ' :: ' ' :: ' ' :: ' ' :: ' ' :: ' ' :: ' ' :: ' ' :: []))
    (g1 ++ suf) (declText name [] [] value ++ suf) hgood hB hnocc'
  have hsufocc : noDeclOccB name suf = true := by
    apply noDeclOccB_append_right name (pre ++ g1) suf
    rw [List.append_assoc]
    exact hnocc'
  rw [hout_shape,
    countDecls_append name _ (declText name [] [] value ++ suf),
    countDecls_append name (declText name [] [] value) suf,
    countPre_declText name [] [] value suf hgood (by simp) (by simp) hval,
    countDecls_eq_zero_of_noOcc name suf hsufocc,
    countPre_eq_zero_of_nones name _ _ hnones]

/-- C3 (amended): per-variable patch idempotence, covering both live
paths of render.py:160-178. For a well-formed variable name and
well-formed values, if the style text either (a) contains exactly one
declaration of the variable (as counted by `countDecls`, the number of
positions where the pattern `--name\s*:\s*[^;]+;` matches) — the
replacement path — or (b) contains the token `--name` at no position but
has a `:root\s*\x7b` block — the insertion path, which injects exactly one
new declaration — then patching with one value and then again with a
second value leaves exactly one declaration of that variable, and it
carries the second value. (The unamended claim, quantified over arbitrary
style text, is refuted separately: on a style text with no declaration
and no rule anchor the patch inserts nothing, so zero declarations
remain.) -/
theorem C3_style_patch_idempotent (name value1 value2 css : List Char)
    (hgood : goodVarName name) (hv1 : goodVarValue value1)
    (hv2 : goodVarValue value2)
    (hcase : countDecls name css = 1 ∨
      (noDeclOccB name css = true ∧ hasRootBlock css = true)) :
    ∃ pre ws1 tk rest,
      set_css_var_in_style name value2
          (set_css_var_in_style name value1 css) =
        pre ++ declText name ws1 tk value2 ++ rest ∧
      countDecls name
        (set_css_var_in_style name value2
          (set_css_var_in_style name value1 css)) = 1 := by
  have hc1' : countDecls name (set_css_var_in_style name value1 css) = 1 := by
    rcases hcase with hcount | ⟨hnocc, hroot⟩
    · obtain ⟨pre1, ws1, tk1, rest1, _, _, heq1, hc1⟩ :=
        patch_once name value1 css hgood hv1 hcount
      rw [heq1]
      exact hc1
    · have hzero : countDecls name css = 0 :=
        countDecls_eq_zero_of_noOcc name css hnocc
      have hnone : subDeclFirst name value1 css = none :=
        (subDeclFirst_eq_none_iff name value1 css).mpr hzero
      obtain ⟨out, hout⟩ : ∃ out, subRootFirst name value1 css = some out := by
        cases hs : subRootFirst name value1 css with
        | none =>
          rw [subRootFirst_eq_none_iff] at hs
          exact absurd hroot (by simp [hs])
        | some out => exact ⟨out, rfl⟩
      have heq : set_css_var_in_style name value1 css = out := by
        unfold set_css_var_in_style
        rw [hnone, hout]
        rfl
      rw [heq]
      exact insert_count_one name value1 css out hgood hv1 hnocc hout
  obtain ⟨pre2, ws2, tk2, rest2, _, _, heq2, hc2⟩ :=
    patch_once name value2 (set_css_var_in_style name value1 css) hgood hv2 hc1'
  refine ⟨pre2, ws2, tk2, rest2, heq2, ?_⟩
  rw [heq2]
  exact hc2

/-- Witness for C3 (amended), one instance per path. Replacement: in the
style text `:root\x7b--neon-bg: blue;\x7d` (exactly one existing
declaration), patching `neon-bg` to `#FF0000` and then to `#00FF00`
leaves exactly one declaration, carrying `#00FF00`. Insertion: in the
style text `:root\x7b\x7d` (no occurrence of the token, a `:root\x7b`
block present), the same double patch also leaves exactly one
declaration, carrying `#00FF00`. -/
theorem C3_style_patch_idempotent_witness :
    (countDecls "neon-bg".toList ":root\x7b--neon-bg: blue;\x7d".toList = 1 ∧
     ∃ pre ws1 tk rest,
       set_css_var_in_style "neon-bg".toList "#00FF00".toList
           (set_css_var_in_style "neon-bg".toList "#FF0000".toList
             ":root\x7b--neon-bg: blue;\x7d".toList) =
         pre ++ declText "neon-bg".toList ws1 tk "#00FF00".toList ++ rest ∧
       countDecls "neon-bg".toList
         (set_css_var_in_style "neon-bg".toList "#00FF00".toList
           (set_css_var_in_style "neon-bg".toList "#FF0000".toList
             ":root\x7b--neon-bg: blue;\x7d".toList)) = 1) ∧
    (noDeclOccB "neon-bg".toList ":root\x7b\x7d".toList = true ∧
     hasRootBlock ":root\x7b\x7d".toList = true ∧
     ∃ pre ws1 tk rest,
       set_css_var_in_style "neon-bg".toList "#00FF00".toList
           (set_css_var_in_style "neon-bg".toList "#FF0000".toList
             ":root\x7b\x7d".toList) =
         pre ++ declText "neon-bg".toList ws1 tk "#00FF00".toList ++ rest ∧
       countDecls "neon-bg".toList
         (set_css_var_in_style "neon-bg".toList "#00FF00".toList
           (set_css_var_in_style "neon-bg".toList "#FF0000".toList
             ":root\x7b\x7d".toList)) = 1) :=
  ⟨⟨by decide,
    C3_style_patch_idempotent "neon-bg".toList "#FF0000".toList
      "#00FF00".toList ":root\x7b--neon-bg: blue;\x7d".toList
      (by decide) (by decide) (by decide) (Or.inl (by decide))⟩,
   ⟨by decide, by decide,
    C3_style_patch_idempotent "neon-bg".toList "#FF0000".toList
      "#00FF00".toList ":root\x7b\x7d".toList
      (by decide) (by decide) (by decide)
      (Or.inr ⟨by decide, by decide⟩)⟩⟩
